import Mathlib

/-!
The progress tailer `Transcoder.Output` of the goffmpeg `transcoder` package.

A shallow embedding of `src/transcoder/transcoder.go`.  Go strings and byte
slices are lists of bytes; the channel returned by `Output` is the list of the
values sent on it, in order.
-/

namespace transcoder

/-! ## Byte strings -/

/-- Go `string` / `[]byte`: a sequence of bytes. -/
abbrev Bytes := List UInt8

/-- The bytes of a literal made of ASCII characters (one byte per character). -/
def ascii (s : String) : Bytes := s.toList.map (fun c => UInt8.ofNat c.toNat)

/-- First position at which `substr` occurs in a byte string, if any. -/
def indexOpt (substr : Bytes) : Bytes → Option Nat
  | [] => if substr = [] then some 0 else none
  | c :: s =>
    if substr.isPrefixOf (c :: s) then some 0
    else (indexOpt substr s).map (fun i => i + 1)

/-- Go `strings.Index(s, substr)`: index of the first occurrence, `-1` if absent. -/
def Index (s substr : Bytes) : Int :=
  match indexOpt substr s with
  | some i => (i : Int)
  | none => -1

/-- First position of the byte `c`, if any. -/
def indexByteOpt (c : UInt8) : Bytes → Option Nat
  | [] => none
  | b :: s => if b = c then some 0 else (indexByteOpt c s).map (fun i => i + 1)

/-- Go `bytes.IndexByte(b, c)`: index of the first `c`, `-1` if absent. -/
def IndexByte (b : Bytes) (c : UInt8) : Int :=
  match indexByteOpt c b with
  | some i => (i : Int)
  | none => -1

/-- Go `strings.Contains(s, substr)`. -/
def Contains (s substr : Bytes) : Bool := decide (Index s substr ≥ 0)

/-! ## The split function of `Output` -/

/-- The closure `split` of `Output` (transcoder.go lines 160-184), with the
captured `filetype` as a parameter.  The result is `(advance, token)`; the
token is `none` for Go's `nil`; the returned error is always `nil`. -/
def split (filetype : Bytes) (data : Bytes) (atEOF : Bool) : Int × Option Bytes :=
  if atEOF = true ∧ data.length = 0 then (0, none)
  else
    let Iframe := Index data (ascii "frame=")
    if filetype = ascii "video" then
      if Iframe > 0 then (Iframe + 1, some (data.drop Iframe.toNat))
      else if atEOF = true then ((data.length : Int), some data)
      else (0, none)
    else
      let i := IndexByte data 10
      if i ≥ 0 then (i + 1, some (data.take i.toNat))
      else if atEOF = true then ((data.length : Int), some data)
      else (0, none)

/-! ## The diagnostic stream and the scanner

`Output` reads the diagnostic stream through a `bufio.Scanner` (Go standard
library) configured with `split`, a 2-byte initial buffer and
`bufio.MaxScanTokenSize`.  The scanner is modelled after `bufio/scan.go`. -/

/-- The diagnostic stream behind `stdErrPipe`: the bytes it delivers before it
reports `io.EOF` (or another error, which the scanner treats alike) that are not
yet delivered, and the sizes of the next deliveries.  A pipe delivers at least
one byte per `Read` until the stream is exhausted, and reports its end
afterwards. -/
structure Reader where
  data : Bytes
  chunks : List Nat

/-- One `Read(p)` with `len(p) = room`: the bytes delivered, the reader
afterwards, and whether the call reported `io.EOF`.  The head of `chunks` bounds
the size of the delivery (a bound of 0 counts as 1); with no bound left, as many
bytes as fit are delivered. -/
def Reader.Read (r : Reader) (room : Nat) : Bytes × Reader × Bool :=
  if r.data = [] then ([], r, true)
  else
    let want := match r.chunks with
      | [] => room
      | c :: _ => max c 1
    let n := min (min want room) r.data.length
    (r.data.take n, { data := r.data.drop n, chunks := r.chunks.tail }, false)

/-- Errors recorded in `Scanner.err`; `EOF` stands for `io.EOF`. -/
inductive ScanError where
  | EOF
  | ErrTooLong
  | ErrNegativeAdvance
  | ErrAdvanceTooFar
  | ErrNoProgress
  deriving DecidableEq, Repr

/-- State of a `bufio.Scanner`: `cap` is `len(s.buf)`, `win` is the unprocessed
buffer content `s.buf[s.start:s.end]` (so `s.end = start + win.length`). -/
structure Scanner where
  r : Reader
  maxTokenSize : Nat
  cap : Nat
  start : Nat
  win : Bytes
  err : Option ScanError

/-- `bufio.Scanner.setErr`: records the error unless another one is already set. -/
def Scanner.setErr (s : Scanner) (e : ScanError) : Scanner :=
  if s.err = none ∨ s.err = some ScanError.EOF then { s with err := some e } else s

/-- Outcome of one iteration of the loop of `Scanner.Scan`. -/
inductive ScanStep where
  /-- `Scan` returns `true`, the token being `tok`. -/
  | token (tok : Bytes) (s : Scanner)
  /-- `Scan` returns `false`. -/
  | stop (s : Scanner)
  /-- the loop goes round again. -/
  | more (s : Scanner)

/-- The end of an iteration of `Scan`: one `Read` into the free part of the
buffer.  (A read of no byte without error stands for Go's `io.ErrNoProgress`
after repeated empty reads.) -/
def Scanner.read (s : Scanner) : ScanStep :=
  match s.r.Read (s.cap - (s.start + s.win.length)) with
  | (bytes, r1, eof) =>
    let s1 := { s with r := r1, win := s.win ++ bytes }
    ScanStep.more
      (if eof = true then s1.setErr ScanError.EOF
       else if bytes = [] then s1.setErr ScanError.ErrNoProgress
       else s1)

/-- The second half of an iteration of `Scan`, reached when no token could be
produced: stop on a recorded error, else shift the data to the start of the
buffer, double a full buffer (up to `maxTokenSize`) and read.  (The guard
`len(s.buf) > maxInt/2` of the Go code cannot hold below `maxTokenSize`.) -/
def Scanner.fill (s : Scanner) : ScanStep :=
  if s.err ≠ none then ScanStep.stop { s with start := 0, win := [] }
  else
    let s1 : Scanner :=
      if s.start > 0 ∧ (s.start + s.win.length = s.cap ∨ s.start > s.cap / 2)
      then { s with start := 0 } else s
    if s1.start + s1.win.length = s1.cap then
      if s1.cap ≥ s1.maxTokenSize then ScanStep.stop (s1.setErr ScanError.ErrTooLong)
      else
        let newSize := min (if s1.cap * 2 = 0 then 4096 else s1.cap * 2) s1.maxTokenSize
        Scanner.read { s1 with cap := newSize, start := 0 }
    else Scanner.read s1

/-- One iteration of the loop of `Scanner.Scan` for a split function that never
returns an error.  (The count of tokens delivered at end of input without
advancing, on which Go panics after 100, is left out: `split` advances whenever
it returns a token.) -/
def Scanner.step (sp : Bytes → Bool → Int × Option Bytes) (s : Scanner) : ScanStep :=
  if s.win ≠ [] ∨ s.err ≠ none then
    match sp s.win (decide (s.err ≠ none)) with
    | (advance, token) =>
      if advance < 0 then ScanStep.stop (s.setErr ScanError.ErrNegativeAdvance)
      else if advance > (s.win.length : Int) then
        ScanStep.stop (s.setErr ScanError.ErrAdvanceTooFar)
      else
        let s1 := { s with start := s.start + advance.toNat, win := s.win.drop advance.toNat }
        match token with
        | some tok => ScanStep.token tok s1
        | none => s1.fill
  else s.fill

/-- The tokens delivered by the loop `for scanner.Scan() { ... scanner.Text() ... }`,
in order; `none` when `fuel` iterations of the scanner loop were not enough. -/
def scanLoop (sp : Bytes → Bool → Int × Option Bytes) : Nat → Scanner → Option (List Bytes)
  | 0, _ => none
  | fuel + 1, s =>
    match s.step sp with
    | ScanStep.token tok s1 => (scanLoop sp fuel s1).map (fun toks => tok :: toks)
    | ScanStep.stop _ => some []
    | ScanStep.more s1 => scanLoop sp fuel s1

/-- `bufio.MaxScanTokenSize`. -/
def MaxScanTokenSize : Nat := 64 * 1024

/-- The scanner as `Output` sets it up: `bufio.NewScanner(t.stdErrPipe)` followed
by `scanner.Buffer(make([]byte, 2), bufio.MaxScanTokenSize)`. -/
def newScanner (pipe : Reader) : Scanner :=
  { r := pipe, maxTokenSize := MaxScanTokenSize, cap := 2, start := 0, win := [], err := none }

/-- Number of scanner iterations granted to `Output`: enough for every stream
(each iteration delivers a token, reads at least one byte, or ends the scan). -/
def scanFuel (pipe : Reader) : Nat := 2 * pipe.data.length + 3

/-- All tokens `Output` obtains from the diagnostic stream. -/
def scanTokens (filetype : Bytes) (pipe : Reader) : Option (List Bytes) :=
  scanLoop (split filetype) (scanFuel pipe) (newScanner pipe)

/-- A stream made of newline-terminated lines: each line followed by `\n`. -/
def joinLines : List Bytes → Bytes
  | [] => []
  | l :: ls => l ++ 10 :: joinLines ls

/-- What the scanner delivers in video mode on the remaining stream `s`: as long
as the first "frame=" is at an index `i > 0`, a token that starts at that
occurrence and holds the bytes buffered so far (some prefix of `s[i:]` that
contains the marker), after which scanning resumes at `i + 1`; then at end of
stream the non-empty remainder as a last token. -/
inductive VideoToks : Bytes → List Bytes → Prop where
  | done : VideoToks [] []
  | last (s : Bytes) : s ≠ [] → ¬ Index s (ascii "frame=") > 0 → VideoToks s [s]
  | cons (s : Bytes) (i : Nat) (tok : Bytes) (toks : List Bytes) :
      Index s (ascii "frame=") = (i : Int) → 0 < i → tok <+: s.drop i →
      ascii "frame=" <+: tok → VideoToks (s.drop (i + 1)) toks → VideoToks s (tok :: toks)

/-- All positions at which `p` occurs in a byte string, in increasing order. -/
def occurrences (p : Bytes) : Bytes → List Nat
  | [] => []
  | c :: s =>
    (if p.isPrefixOf (c :: s) then [0] else []) ++ (occurrences p s).map (fun i => i + 1)

/-- Relation between a scanner state and the state after one successful round of
`fill`: either the stream was exhausted and `io.EOF` is recorded, or at least one
more byte of the stream was appended to the window. -/
def Scanner.Fed (s s1 : Scanner) : Prop :=
  s1.maxTokenSize = s.maxTokenSize ∧ s1.start + s1.win.length ≤ s1.cap ∧
  ((s.r.data = [] ∧ s1.win = s.win ∧ s1.err = some ScanError.EOF ∧ s1.r.data = []) ∨
   (∃ n, 1 ≤ n ∧ n ≤ s.r.data.length ∧ s1.win = s.win ++ s.r.data.take n ∧
      s1.r.data = s.r.data.drop n ∧ s1.err = none))

/-! ## Go `float64`

IEEE 754 binary64 with round-to-nearest-even, as far as `Output` uses it. -/

/-- A `float64` value.  `fin neg m e` is the finite value `(-1)^neg * m * 2^e`,
kept in canonical form: zero is `fin neg 0 0`; otherwise `-1074 ≤ e ≤ 971` and
`2^52 ≤ m < 2^53`, or `e = -1074` and `0 < m < 2^52` (subnormal). -/
inductive F64 where
  | nan
  | inf (neg : Bool)
  | fin (neg : Bool) (m : Nat) (e : Int)
  deriving DecidableEq, Repr

namespace F64

/-- The value `+0`, the zero value of a Go `float64` variable. -/
def zero : F64 := fin false 0 0

/-- Number of binary digits of `n`, computed with `fuel` halvings at most. -/
def bitLen : Nat → Nat → Nat
  | 0, _ => 0
  | fuel + 1, n => if n = 0 then 0 else bitLen fuel (n / 2) + 1

/-- Position of the leading binary digit: `⌊log₂ n⌋` for `n > 0`. -/
def ilog2 (n : Nat) : Nat := bitLen n n - 1

/-- The quotient `n / d` of two naturals (`d > 0`) with sign `neg`, rounded to
the nearest `float64`, ties to even; overflow gives an infinity. -/
def round (neg : Bool) (n d : Nat) : F64 :=
  if n = 0 ∨ d = 0 then fin neg 0 0
  else
    let e0 : Int := (ilog2 n : Int) - (ilog2 d : Int) - 52
    let q0 : Nat := if e0 < 0 then n * 2 ^ (-e0).toNat / d else n / (d * 2 ^ e0.toNat)
    let e1 : Int := if q0 < 2 ^ 52 then e0 - 1 else e0
    let e : Int := max e1 (-1074)
    let num : Nat := if e < 0 then n * 2 ^ (-e).toNat else n
    let den : Nat := if e < 0 then d else d * 2 ^ e.toNat
    let q := num / den
    let r := num % den
    let m := if 2 * r > den ∨ (2 * r = den ∧ q % 2 = 1) then q + 1 else q
    if m = 0 then fin neg 0 0
    else if m = 2 ^ 53 then (if e + 1 > 971 then inf neg else fin neg (2 ^ 52) (e + 1))
    else if e > 971 then inf neg
    else fin neg m e

/-- The value `m * 2^e` with sign `neg`, rounded. -/
def ofScaled (neg : Bool) (m : Nat) (e : Int) : F64 :=
  if e < 0 then round neg m (2 ^ (-e).toNat) else round neg (m * 2 ^ e.toNat) 1

/-- Conversion of a natural number constant such as `100`. -/
def ofNat (n : Nat) : F64 := round false n 1

/-- Go `x * y` on `float64`. -/
def mul : F64 → F64 → F64
  | nan, _ => nan
  | _, nan => nan
  | inf s, inf t => inf (xor s t)
  | inf s, fin t m _ => if m = 0 then nan else inf (xor s t)
  | fin s m _, inf t => if m = 0 then nan else inf (xor s t)
  | fin s m e, fin t k f => ofScaled (xor s t) (m * k) (e + f)

/-- Go `x / y` on `float64`. -/
def div : F64 → F64 → F64
  | nan, _ => nan
  | _, nan => nan
  | inf _, inf _ => nan
  | inf s, fin t _ _ => inf (xor s t)
  | fin s _ _, inf t => fin (xor s t) 0 0
  | fin s m e, fin t k f =>
    if k = 0 then (if m = 0 then nan else inf (xor s t))
    else if e - f < 0 then round (xor s t) m (k * 2 ^ (-(e - f)).toNat)
    else round (xor s t) (m * 2 ^ (e - f).toNat) k

/-- The integer `(-1)^neg * m * 2^(e - g)`, for `g ≤ e`. -/
def scaledInt (neg : Bool) (m : Nat) (e g : Int) : Int :=
  (if neg then -1 else 1) * ((m * 2 ^ (e - g).toNat : Nat) : Int)

/-- Go `x + y` on `float64`. -/
def add : F64 → F64 → F64
  | nan, _ => nan
  | _, nan => nan
  | inf s, inf t => if s = t then inf s else nan
  | inf s, fin _ _ _ => inf s
  | fin _ _ _, inf t => inf t
  | fin s m e, fin t k f =>
    let g := min e f
    let c := scaledInt s m e g + scaledInt t k f g
    if c = 0 then fin (s && t) 0 0 else ofScaled (decide (c < 0)) c.natAbs g

/-- Go `x == y` on `float64`: false when either side is NaN, `-0 == +0`. -/
def eq : F64 → F64 → Bool
  | fin s m e, fin t k f => (m == 0 && k == 0) || (s == t && m == k && e == f)
  | inf s, inf t => s == t
  | _, _ => false

/-- Go `x != y` on `float64`: the negation of `==`, true when either side is NaN. -/
def ne (x y : F64) : Bool := !(eq x y)

/-- Go `x <= y` on `float64`: false when either side is NaN. -/
def le : F64 → F64 → Bool
  | nan, _ => false
  | _, nan => false
  | inf s, inf t => s || !t
  | inf s, fin _ _ _ => s
  | fin _ _ _, inf t => !t
  | fin s m e, fin t k f => decide (scaledInt s m e (min e f) ≤ scaledInt t k f (min e f))

/-- Whether the value is a NaN. -/
def isNaN : F64 → Bool
  | nan => true
  | _ => false

end F64

/-! ## Library functions used on a token -/

/-- Go `strings.Split(s, sep)` for a one-byte separator `sep`. -/
def Split (sep : UInt8) : Bytes → List Bytes
  | [] => [[]]
  | c :: s =>
    if c = sep then [] :: Split sep s
    else
      match Split sep s with
      | [] => [[c]]
      | h :: t => (c :: h) :: t

/-- The class `\s` of Go regular expressions: `[\t\n\f\r ]`. -/
def isReSpace (c : UInt8) : Bool := c = 9 || c = 10 || c = 12 || c = 13 || c = 32

/-- The replacement of the matches of `=\s+`, scanning left to right; `skip`
tells that the last byte kept was a `=` (possibly with white space dropped
after it), so that white space met now belongs to a match. -/
def collapseAux : Bool → Bytes → Bytes
  | _, [] => []
  | skip, c :: s =>
    if skip && isReSpace c then collapseAux true s
    else c :: collapseAux (c = 61) s

/-- Go `regexp.MustCompile("=\\s+").ReplaceAllString(line, "=")`: every `=`
followed by white space loses that white space. -/
def ReplaceAllString (line : Bytes) : Bytes := collapseAux false line

/-- The one-byte white space characters of `strings.Fields`. -/
def asciiSpace (c : UInt8) : Bool :=
  c = 9 || c = 10 || c = 11 || c = 12 || c = 13 || c = 32

/-- Width in bytes of the white space character (`unicode.IsSpace`) whose UTF-8
encoding starts the byte string, 0 if there is none: the six ASCII ones, U+0085,
U+00A0, U+1680, U+2000..U+200A, U+2028, U+2029, U+202F, U+205F, U+3000. -/
def spaceWidth : Bytes → Nat
  | [] => 0
  | a :: t =>
    if asciiSpace a then 1
    else if a = 0xC2 then
      match t with
      | b :: _ => if b = 0x85 ∨ b = 0xA0 then 2 else 0
      | [] => 0
    else if a = 0xE1 then
      match t with
      | b :: c :: _ => if b = 0x9A ∧ c = 0x80 then 3 else 0
      | _ => 0
    else if a = 0xE2 then
      match t with
      | b :: c :: _ =>
        if (b = 0x80 ∧ ((0x80 ≤ c ∧ c ≤ 0x8A) ∨ c = 0xA8 ∨ c = 0xA9 ∨ c = 0xAF))
            ∨ (b = 0x81 ∧ c = 0x9F) then 3 else 0
      | _ => 0
    else if a = 0xE3 then
      match t with
      | b :: c :: _ => if b = 0x80 ∧ c = 0x80 then 3 else 0
      | _ => 0
    else 0

/-- No white space character starts at any position of the byte string. -/
def noSpace : Bytes → Bool
  | [] => true
  | c :: s => decide (spaceWidth (c :: s) = 0) && noSpace s

/-- The fields of the rest of a string: `skip` bytes of a white space character
are still to be passed over, `cur` is the field collected so far. -/
def fieldsAux : Nat → Bytes → Bytes → List Bytes
  | _, cur, [] => if cur = [] then [] else [cur]
  | skip + 1, cur, _ :: rest => fieldsAux skip cur rest
  | 0, cur, c :: rest =>
    match spaceWidth (c :: rest) with
    | 0 => fieldsAux 0 (cur ++ [c]) rest
    | w + 1 => (if cur = [] then [] else [cur]) ++ fieldsAux w [] rest

/-- Go `strings.Fields(s)`: the maximal runs of bytes between white space
characters.  (A byte that starts the encoding of a white space character is
never a continuation byte, so the white space characters found by decoding the
string are those found at the byte positions.) -/
def Fields (s : Bytes) : List Bytes := fieldsAux 0 [] s

/-- Whether a byte is a decimal digit. -/
def isDigit (c : UInt8) : Bool := decide (48 ≤ c.toNat ∧ c.toNat ≤ 57)

/-- ASCII lower case of a byte string. -/
def lower (s : Bytes) : Bytes :=
  s.map (fun c => if 65 ≤ c.toNat ∧ c.toNat ≤ 90 then c + 32 else c)

/-- Whether a byte is one of the hexadecimal letters `a`-`f`, `A`-`F`. -/
def isHexLetter (c : UInt8) : Bool :=
  decide ((65 ≤ c.toNat ∧ c.toNat ≤ 70) ∨ (97 ≤ c.toNat ∧ c.toNat ≤ 102))

/-- Value of a mantissa digit: a decimal digit or a hexadecimal letter. -/
def digitVal (c : UInt8) : Nat :=
  if isDigit c then c.toNat - 48 else if 97 ≤ c.toNat then c.toNat - 87 else c.toNat - 55

/-- What the mantissa loop of strconv's `readFloat` has gathered: the digits
read so far as a number in the base, how many of them stand after the point,
and the flags `sawdot`, `sawdigits`, `underscores`. -/
structure Mantissa where
  val : Nat
  frac : Nat
  sawdot : Bool
  sawdigits : Bool
  underscores : Bool

/-- The mantissa loop of `readFloat`: it passes over digits (hexadecimal
letters too when `hex`), underscores and one point, and stops at any other
byte; the result is what was gathered and the bytes not read. -/
def readMantissa (hex : Bool) : Mantissa → Bytes → Mantissa × Bytes
  | m, [] => (m, [])
  | m, c :: s =>
    if c = 95 then readMantissa hex { m with underscores := true } s
    else if c = 46 then
      if m.sawdot = true then (m, c :: s) else readMantissa hex { m with sawdot := true } s
    else if isDigit c || (hex && isHexLetter c) then
      readMantissa hex
        { m with sawdigits := true,
                 val := (if hex = true then 16 else 10) * m.val + digitVal c,
                 frac := if m.sawdot = true then m.frac + 1 else m.frac } s
    else (m, c :: s)

/-- The exponent loop of `readFloat` over digits and underscores: the exponent
(which stops growing once it has reached 10000), whether an underscore was met,
and the bytes not read. -/
def readExpDigits : Nat → Bool → Bytes → Nat × Bool × Bytes
  | e, us, [] => (e, us, [])
  | e, us, c :: s =>
    if c = 95 then readExpDigits e true s
    else if isDigit c then
      readExpDigits (if e < 10000 then e * 10 + (c.toNat - 48) else e) us s
    else (e, us, c :: s)

/-- The last kind of byte seen by `underscoreOK`. -/
inductive Saw where
  | start
  | digit
  | underscore
  | other
  deriving DecidableEq, Repr

/-- The loop of strconv's `underscoreOK` over the number proper: an underscore
must follow a digit (or the base prefix) and be followed by a digit. -/
def underscoreOKAux (hex : Bool) : Saw → Bytes → Bool
  | saw, [] => decide (saw ≠ Saw.underscore)
  | saw, c :: s =>
    if isDigit c || (hex && isHexLetter c) then underscoreOKAux hex Saw.digit s
    else if c = 95 then
      if saw = Saw.digit then underscoreOKAux hex Saw.underscore s else false
    else if saw = Saw.underscore then false
    else underscoreOKAux hex Saw.other s

/-- strconv's `underscoreOK`: whether the underscores of a number are placed as
Go syntax allows, after an optional sign and an optional base prefix
`0b`, `0o` or `0x`. -/
def underscoreOK (s : Bytes) : Bool :=
  let s1 := match s with
    | 45 :: t => t
    | 43 :: t => t
    | _ => s
  match s1 with
  | 48 :: x :: t =>
    if x = 98 ∨ x = 66 ∨ x = 111 ∨ x = 79 ∨ x = 120 ∨ x = 88 then
      underscoreOKAux (decide (x = 120 ∨ x = 88)) Saw.digit t
    else underscoreOKAux false Saw.start s1
  | _ => underscoreOKAux false Saw.start s1

/-- strconv's `readFloat` on a string that it accepts and reads to the end:
whether the number is negative, whether it is hexadecimal, the digits of the
mantissa as a natural number, and the power of the base (10, or 2 when
hexadecimal) that scales it.  `none` when the string is not a number in Go
syntax: no digit, a hexadecimal mantissa without `p` exponent, an exponent
without digits, misplaced underscores, or bytes left over. -/
def readFloat (s : Bytes) : Option (Bool × Bool × Nat × Int) :=
  let neg : Bool := match s with
    | 45 :: _ => true
    | _ => false
  let s1 := match s with
    | 45 :: t => t
    | 43 :: t => t
    | _ => s
  let hex : Bool := match s1 with
    | 48 :: x :: _ :: _ => decide (x = 120 ∨ x = 88)
    | _ => false
  let s2 := if hex = true then s1.drop 2 else s1
  match readMantissa hex
      { val := 0, frac := 0, sawdot := false, sawdigits := false, underscores := false } s2 with
  | (m, s3) =>
    if m.sawdigits = false then none
    else
      let fracExp : Int := if hex = true then 4 * (m.frac : Int) else (m.frac : Int)
      match s3 with
      | [] =>
        if hex = true then none
        else if m.underscores = true ∧ underscoreOK s = false then none
        else some (neg, hex, m.val, -fracExp)
      | c :: s4 =>
        if (hex = true ∧ (c = 112 ∨ c = 80)) ∨ (hex = false ∧ (c = 101 ∨ c = 69)) then
          match s4 with
          | [] => none
          | d :: s5 =>
            let s6 := if d = 43 ∨ d = 45 then s5 else d :: s5
            match s6 with
            | [] => none
            | x :: _ =>
              if isDigit x = false then none
              else
                match readExpDigits 0 false s6 with
                | (e, us, rest) =>
                  if rest ≠ [] then none
                  else if (m.underscores = true ∨ us = true) ∧ underscoreOK s = false then none
                  else some (neg, hex, m.val, (if d = 45 then -(e : Int) else (e : Int)) - fracExp)
        else none

/-- Go `strconv.ParseFloat(s, 64)` without its error result, which both call
sites drop: NaN for "nan", an infinity for "inf" and "infinity" with an optional
sign (letters in either case), and otherwise the `float64` nearest to the
decimal or hexadecimal floating-point number that `s` is in Go syntax,
digit-separating underscores included, an infinity when it is out of range;
`+0` when `s` is none of these (a syntax error). -/
def ParseFloat (s : Bytes) : F64 :=
  let s1 := match s with
    | 45 :: t => t
    | 43 :: t => t
    | _ => s
  let neg : Bool := match s with
    | 45 :: _ => true
    | _ => false
  if lower s = ascii "nan" then F64.nan
  else if lower s1 = ascii "inf" ∨ lower s1 = ascii "infinity" then F64.inf neg
  else
    match readFloat s with
    | some (neg, hex, mant, k) =>
      if hex = true then F64.ofScaled neg mant k
      else if k < 0 then F64.round neg mant (10 ^ (-k).toNat)
      else F64.round neg (mant * 10 ^ k.toNat) 1
    | none => F64.zero

/-- Modelled from the spec: `utils.DurToSec` is not under src/.  The spec has it
"convert the time field from its native timestamp format
(hours:minutes:seconds.fraction) into seconds", an unparsable time being
"treated as zero". -/
def DurToSec (dur : Bytes) : F64 :=
  match Split 58 dur with
  | [h, m, sec] =>
    F64.add (F64.add (F64.mul (ParseFloat h) (F64.ofNat 3600))
      (F64.mul (ParseFloat m) (F64.ofNat 60))) (ParseFloat sec)
  | _ => F64.zero

/-! ## The transcoder and `Output` -/

/-- Modelled from the spec: `models.Streams` is not under src/; a stream
descriptor with its media-kind classification. -/
structure Streams where
  CodecType : Bytes

/-- Modelled from the spec: `models.Format` is not under src/; the format-level
duration, a decimal string of seconds. -/
structure Format where
  Duration : Bytes

/-- Modelled from the spec: `models.Metadata` is not under src/. -/
structure Metadata where
  Streams : List Streams
  Format : Format

/-- Modelled from the spec: `models.Mediafile` is not under src/; input path,
output path and the attached metadata. -/
structure Mediafile where
  inputPath : Bytes
  outputPath : Bytes
  metadata : Metadata

/-- Modelled from the spec: `models.Progress` is not under src/; the fields are
those `Output` assigns. -/
structure Progress where
  FramesProcessed : Bytes
  CurrentTime : Bytes
  CurrentBitrate : Bytes
  Progress : F64
  deriving DecidableEq, Repr

/-- Modelled from the spec: `utils.CheckFileType` is not under src/; the job is
classified "video" when it has a video stream, and otherwise (e.g. audio-only)
"audio". -/
def CheckFileType (streams : List Streams) : Bytes :=
  if streams.any (fun st => decide (st.CodecType = ascii "video")) then ascii "video"
  else ascii "audio"

/-- Modelled from the spec: `ffmpeg.Configuration` is not under src/; the
locations of the two external binaries. -/
structure Configuration where
  FfmpegBin : Bytes
  FfprobeBin : Bytes
  deriving DecidableEq, Repr

/-- The struct `Transcoder` (lines 20-24): `stdErrPipe` and `mediafile` are
`none` for Go's `nil`; `configuration` starts as the zero value of its struct. -/
structure Transcoder where
  stdErrPipe : Option Reader
  mediafile : Option Mediafile
  configuration : Configuration := { FfmpegBin := [], FfprobeBin := [] }

/-- The three variables `framesProcessed`, `currentTime`, `currentBitrate`. -/
structure FieldValues where
  framesProcessed : Bytes
  currentTime : Bytes
  currentBitrate : Bytes
  deriving DecidableEq, Repr

/-- The body of the loop over the fields `f[j]` (lines 205-225). -/
def fieldStep (v : FieldValues) (field : Bytes) : FieldValues :=
  let fieldSplit := Split 61 field
  if fieldSplit.length > 1 then
    let fieldname := fieldSplit.getD 0 []
    let fieldvalue := fieldSplit.getD 1 []
    let v1 := if fieldname = ascii "frame" then { v with framesProcessed := fieldvalue } else v
    let v2 := if fieldname = ascii "time" then { v1 with currentTime := fieldvalue } else v1
    if fieldname = ascii "bitrate" then { v2 with currentBitrate := fieldvalue } else v2
  else v

/-- The loop `for j := 0; j < len(f); j++` over the fields. -/
def fieldLoop (f : List Bytes) : FieldValues :=
  f.foldl fieldStep { framesProcessed := [], currentTime := [], currentBitrate := [] }

/-- The `Progress` value built for a token (lines 195-235): `none` when the
token is not a candidate, i.e. lacks "time=" or "bitrate=". -/
def parseLine (duration : Bytes) (line : Bytes) : Option Progress :=
  if Contains line (ascii "time=") && Contains line (ascii "bitrate=") then
    let st := ReplaceAllString line
    let f := Fields st
    let v := fieldLoop f
    let timesec := DurToSec v.currentTime
    let dursec := ParseFloat duration
    let progress := F64.div (F64.mul timesec (F64.ofNat 100)) dursec
    some { Progress := progress, CurrentBitrate := v.currentBitrate,
           FramesProcessed := v.framesProcessed, CurrentTime := v.currentTime }
  else none

/-- One round of the loop `for scanner.Scan()` (lines 191-242) on the token
`line`: the new value of `lastProgress` and the value sent on `out`, if any. -/
def tokenStep (duration : Bytes) (lastProgress : F64) (line : Bytes) : F64 × Option Progress :=
  match parseLine duration line with
  | some p =>
    if F64.ne p.Progress lastProgress then (p.Progress, some p) else (lastProgress, none)
  | none => (lastProgress, none)

/-- The values sent on `out` while the loop runs over the tokens, starting with
the given value of `lastProgress`. -/
def emitLoop (duration : Bytes) : F64 → List Bytes → List Progress
  | _, [] => []
  | lastProgress, line :: rest =>
    match tokenStep duration lastProgress line with
    | (last1, some p) => p :: emitLoop duration last1 rest
    | (last1, none) => emitLoop duration last1 rest

/-- `Transcoder.Output` (lines 149-246): the values received from the returned
channel until it is closed.  `none` stands for a run that does not end
normally: dereferencing a nil `mediafile`. -/
def Output (t : Transcoder) : Option (List Progress) :=
  match t.stdErrPipe with
  | none => some []
  | some pipe =>
    match t.mediafile with
    | none => none
    | some mf =>
      match scanTokens (CheckFileType mf.metadata.Streams) pipe with
      | some toks => some (emitLoop mf.metadata.Format.Duration F64.zero toks)
      | none => none

/-! ## `GetCommand`, `Initialize` and `Run` -/

/-- A non-nil Go `error`, represented by its message. -/
abbrev GoError := Bytes

/-- The text `fmt` prints for a `[]string` under `%s`: the elements separated by
blanks, in square brackets. -/
def fmtStrings (l : List Bytes) : Bytes :=
  ascii "[" ++ (l.intersperse (ascii " ")).flatten ++ ascii "]"

/-- `Transcoder.GetCommand` (lines 52-56).  `ToStrCommand` stands for the method
`models.Mediafile.ToStrCommand`, which is not under src/; `none` stands for the
dereference of a nil `mediafile`. -/
def GetCommand (ToStrCommand : Mediafile → List Bytes) (t : Transcoder) : Option (List Bytes) :=
  match t.mediafile with
  | none => none
  | some media => some ([ascii "-y"] ++ ToStrCommand media)

/-- What a call of `Initialize` meets outside the program: the result of
`ffmpeg.Configure()`, whether `os.IsNotExist` holds of the error of
`os.Stat(path)`, the error and the captured standard output of running a binary
with arguments, and the result of `json.Unmarshal` into a `models.Metadata`. -/
structure World where
  Configure : Except GoError Configuration
  notExist : Bytes → Bool
  probe : Bytes → List Bytes → Option GoError × Bytes
  Unmarshal : Bytes → Except GoError Metadata

/-- The calls `Initialize` makes to the outside, in order. -/
inductive Action where
  | Configure
  | Println (msg : Bytes)
  | Stat (path : Bytes)
  | RunProbe (bin : Bytes) (args : List Bytes)
  deriving DecidableEq, Repr

/-- Outcome of `Initialize`: the returned error (`none` for `nil`), the
transcoder afterwards, and the calls made to the outside. -/
structure InitResult where
  err : Option GoError
  t : Transcoder
  log : List Action

/-- `Transcoder.Initialize` (lines 60-107). -/
def Initialize (w : World) (t : Transcoder) (inputPath outputPath : Bytes) : InitResult :=
  match w.Configure with
  | Except.error err => { err := some err, t := t, log := [Action.Configure, Action.Println err] }
  | Except.ok configuration =>
    if inputPath = [] then
      { err := some (ascii "error: transcoder.Initialize -> inputPath missing"), t := t,
        log := [Action.Configure] }
    else if w.notExist inputPath = true then
      { err := some (ascii "error: transcoder.Initialize -> input file not found"), t := t,
        log := [Action.Configure, Action.Stat inputPath] }
    else
      let command := [ascii "-i", inputPath, ascii "-print_format", ascii "json",
        ascii "-show_format", ascii "-show_streams", ascii "-show_error"]
      let log := [Action.Configure, Action.Stat inputPath,
        Action.RunProbe configuration.FfprobeBin command]
      match w.probe configuration.FfprobeBin command with
      | (some err, out) =>
        { err := some (ascii "Failed FFPROBE (" ++ fmtStrings command ++ ascii ") with " ++ err
            ++ ascii ", message " ++ out),
          t := t, log := log }
      | (none, out) =>
        match w.Unmarshal out with
        | Except.error err => { err := some err, t := t, log := log }
        | Except.ok Metadata =>
          let MediaFile : Mediafile :=
            { metadata := Metadata, inputPath := inputPath, outputPath := outputPath }
          { err := none,
            t := { t with mediafile := some MediaFile, configuration := configuration },
            log := log }

/-- The child process `exec.Command(bin, args...)` as `Run` meets it: the result
of `StderrPipe()`, the errors of `Start()` and of `Wait()` (`none` for `nil`),
and the content of the standard output buffer when an error message is built
after a failed start and after a failed wait. -/
structure Proc where
  StderrPipe : Except GoError Reader
  Start : Option GoError
  Wait : Option GoError
  outAtStart : Bytes
  outAtWait : Bytes

/-- An operation on the channel `done`. -/
inductive ChanOp where
  | send (v : Option GoError)
  | close
  deriving DecidableEq, Repr

/-- Outcome of `Run` once its goroutine has finished, a receiver taking what is
sent on `done`: the transcoder afterwards, the operations on `done` in order,
whether `proc.Wait()` was called and whether the stream was closed. -/
structure RunResult where
  t : Transcoder
  done : List ChanOp
  waited : Bool
  closedStream : Bool

/-- `Transcoder.Run` (lines 109-147); `exec` stands for `exec.Command`.  `none`
stands for the dereference of a nil `mediafile` in `GetCommand`. -/
def Run (ToStrCommand : Mediafile → List Bytes) (exec : Bytes → List Bytes → Proc)
    (t : Transcoder) : Option RunResult :=
  match GetCommand ToStrCommand t with
  | none => none
  | some command =>
    let proc := exec t.configuration.FfmpegBin command
    let t1 : Transcoder := match proc.StderrPipe with
      | Except.error _ => t
      | Except.ok errStream => { t with stdErrPipe := some errStream }
    let closed : Bool := match proc.StderrPipe with
      | Except.error _ => false
      | Except.ok _ => true
    match proc.Start with
    | some err =>
      some { t := t1,
             done := [ChanOp.send (some (ascii "Failed Start FFMPEG (" ++ fmtStrings command
                        ++ ascii ") with " ++ err ++ ascii ", message " ++ proc.outAtStart)),
                      ChanOp.close],
             waited := false, closedStream := closed }
    | none =>
      let err1 : Option GoError := match proc.Wait with
        | some err => some (ascii "Failed Finish FFMPEG (" ++ fmtStrings command
            ++ ascii ") with " ++ err ++ ascii " message " ++ proc.outAtWait)
        | none => none
      some { t := t1, done := [ChanOp.send err1, ChanOp.close], waited := true,
             closedStream := closed }

/-! ## The fields of a token, as the specification words them -/

/-- The text of a field before its first `=`. -/
def fieldName (f : Bytes) : Bytes := f.takeWhile (fun c => c != 61)

/-- The text of a field between its first and its second `=`, or the end. -/
def fieldValue (f : Bytes) : Bytes :=
  ((f.dropWhile (fun c => c != 61)).drop 1).takeWhile (fun c => c != 61)

/-- The value of the last field that has an `=` and whose text before its first
`=` is exactly `name`; the empty string when there is no such field. -/
def lastFieldValue (name : Bytes) (fields : List Bytes) : Bytes :=
  match (fields.filter
      (fun f => decide ((61 : UInt8) ∈ f) && decide (fieldName f = name))).getLast? with
  | some f => fieldValue f
  | none => []

/-! ## Theorems -/

theorem indexOpt_occurs (p : Bytes) :
    ∀ (s : Bytes) (i : Nat), indexOpt p s = some i → p <+: s.drop i := by
  intro s
  induction s with
  | nil =>
    intro i h
    simp only [indexOpt] at h
    split at h
    · subst_vars; simp
    · cases h
  | cons c s ih =>
    intro i h
    simp only [indexOpt] at h
    split at h
    · rename_i hc
      cases h
      simpa using hc
    · cases hs : indexOpt p s with
      | none => simp [hs] at h
      | some j =>
        simp [hs] at h
        subst h
        simpa using ih j hs

theorem indexOpt_first (p : Bytes) :
    ∀ (s : Bytes) (i j : Nat), indexOpt p s = some i → j < i → ¬ p <+: s.drop j := by
  intro s
  induction s with
  | nil =>
    intro i j h hj
    simp only [indexOpt] at h
    split at h
    · cases h; omega
    · cases h
  | cons c s ih =>
    intro i j h hj
    simp only [indexOpt] at h
    split at h
    · cases h; omega
    · rename_i hc
      cases hs : indexOpt p s with
      | none => simp [hs] at h
      | some k =>
        simp [hs] at h
        subst h
        cases j with
        | zero => simpa using hc
        | succ j => simpa using ih k j hs (by omega)

theorem indexOpt_le_length (p : Bytes) :
    ∀ (s : Bytes) (i : Nat), indexOpt p s = some i → i ≤ s.length := by
  intro s
  induction s with
  | nil =>
    intro i h
    simp only [indexOpt] at h
    split at h
    · cases h; simp
    · cases h
  | cons c s ih =>
    intro i h
    simp only [indexOpt] at h
    split at h
    · cases h; simp
    · cases hs : indexOpt p s with
      | none => simp [hs] at h
      | some k =>
        simp [hs] at h
        subst h
        have := ih k hs
        simp
        omega

theorem indexOpt_add_le (p s : Bytes) (i : Nat) (h : indexOpt p s = some i) :
    i + p.length ≤ s.length := by
  have h1 := (indexOpt_occurs p s i h).length_le
  have h2 := indexOpt_le_length p s i h
  simp at h1
  omega

theorem indexOpt_none (p : Bytes) :
    ∀ (s : Bytes) (j : Nat), indexOpt p s = none → ¬ p <+: s.drop j := by
  intro s
  induction s with
  | nil =>
    intro j h
    simp only [indexOpt] at h
    split at h
    · cases h
    · rename_i hp
      simpa using hp
  | cons c s ih =>
    intro j h
    simp only [indexOpt] at h
    split at h
    · cases h
    · rename_i hc
      cases hs : indexOpt p s with
      | some k => simp [hs] at h
      | none =>
        cases j with
        | zero => simpa using hc
        | succ j => simpa using ih j hs

theorem indexByteOpt_none (c : UInt8) :
    ∀ (s : Bytes), indexByteOpt c s = none ↔ c ∉ s := by
  intro s
  induction s with
  | nil => simp [indexByteOpt]
  | cons b s ih =>
    simp only [indexByteOpt]
    split
    · rename_i hb
      simp [hb]
    · rename_i hb
      have hcb : ¬ c = b := fun h => hb h.symm
      simp [ih, hcb]

theorem indexByteOpt_some (c : UInt8) :
    ∀ (s : Bytes) (i : Nat), indexByteOpt c s = some i →
      c ∉ s.take i ∧ s.drop i = c :: s.drop (i + 1) := by
  intro s
  induction s with
  | nil => intro i h; simp [indexByteOpt] at h
  | cons b s ih =>
    intro i h
    simp only [indexByteOpt] at h
    split at h
    · rename_i hb
      cases h
      simp [hb]
    · rename_i hb
      cases hs : indexByteOpt c s with
      | none => simp [hs] at h
      | some k =>
        simp [hs] at h
        subst h
        have hcb : ¬ c = b := fun h => hb h.symm
        have := ih k hs
        simp [hcb, this.1]
        exact this.2

theorem Index_eq_natCast (s p : Bytes) (i : Nat) :
    Index s p = (i : Int) ↔ indexOpt p s = some i := by
  unfold Index
  cases h : indexOpt p s with
  | none => simp
  | some k => simp

theorem Index_eq_neg_one (s p : Bytes) : Index s p = -1 ↔ indexOpt p s = none := by
  unfold Index
  cases h : indexOpt p s with
  | none => simp
  | some k => simp

theorem Index_ge_neg_one (s p : Bytes) : -1 ≤ Index s p := by
  unfold Index
  cases h : indexOpt p s with
  | none => simp
  | some k => simp; omega

theorem IndexByte_eq_natCast (s : Bytes) (c : UInt8) (i : Nat) :
    IndexByte s c = (i : Int) ↔ indexByteOpt c s = some i := by
  unfold IndexByte
  cases h : indexByteOpt c s with
  | none => simp
  | some k => simp

theorem IndexByte_eq_neg_one (s : Bytes) (c : UInt8) : IndexByte s c = -1 ↔ c ∉ s := by
  unfold IndexByte
  cases h : indexByteOpt c s with
  | none => simpa using (indexByteOpt_none c s).mp h
  | some k =>
    have h1 : ¬ indexByteOpt c s = none := by simp [h]
    rw [indexByteOpt_none] at h1
    simp at h1
    simp [h1]

/-- No occurrence of a non-empty `p` at an index `> 0` of `s`, in checkable form. -/
theorem no_later_occurrence (p s : Bytes) (h : indexOpt p (s.drop 1) = none) :
    ∀ i, 0 < i → ¬ p <+: s.drop i := by
  intro i hi
  have := indexOpt_none p (s.drop 1) (i - 1) h
  rw [List.drop_drop] at this
  have e : i - 1 + 1 = i := by omega
  first
    | rwa [e] at this
    | (have e2 : 1 + (i - 1) = i := by omega
       rwa [e2] at this)

theorem split_video_found (w : Bytes) (b : Bool) (i : Nat) (hi : 0 < i)
    (h : indexOpt (ascii "frame=") w = some i) :
    split (ascii "video") w b = (((i + 1 : Nat) : Int), some (w.drop i)) := by
  have hlen := indexOpt_add_le _ _ _ h
  have hI := (Index_eq_natCast _ _ _).mpr h
  have hne : ¬ (b = true ∧ w.length = 0) := by
    intro hc
    omega
  have hpos : Index w (ascii "frame=") > 0 := by rw [hI]; exact_mod_cast hi
  simp only [split, hne, if_false, if_true, hpos]
  simp [hI]

/-- C1 (amended): in video mode, when the first occurrence of "frame=" in `data`
is at an index `i > 0`, the split function returns as token the bytes of `data`
from index `i` to the end of `data`, and advances by `i + 1`. -/
theorem split_video_token (data : Bytes) (atEOF : Bool) (i : Nat) (hi : 0 < i)
    (h : Index data (ascii "frame=") = (i : Int)) :
    split (ascii "video") data atEOF = ((i : Int) + 1, some (data.drop i)) := by
  have hlen := indexOpt_add_le _ _ _ ((Index_eq_natCast _ _ _).mp h)
  have hne : ¬ (atEOF = true ∧ data.length = 0) := by
    intro hc
    omega
  have hpos : Index data (ascii "frame=") > 0 := by rw [h]; exact_mod_cast hi
  simp only [split, hne, if_false, if_true, hpos]
  simp [h]

theorem split_video_token_witness :
    split (ascii "video") (ascii "xframe=1 frame=2") false
      = (((1 : Nat) : Int) + 1, some ((ascii "xframe=1 frame=2").drop 1)) :=
  split_video_token (ascii "xframe=1 frame=2") false 1 (by decide) (by decide)

/-- C1 (as stated) fails: in "xframe=1 frame=2" the first "frame=" is at index 1
and the next one at index 9, but the token is not the bytes from index 0 up to
index 9: it is "frame=1 frame=2", from index 1 to the end of the buffer. -/
theorem split_video_token_counterexample :
    Index (ascii "xframe=1 frame=2") (ascii "frame=") = 1 ∧
    Index ((ascii "xframe=1 frame=2").drop 2) (ascii "frame=") = 7 ∧
    (split (ascii "video") (ascii "xframe=1 frame=2") false).2
      ≠ some ((ascii "xframe=1 frame=2").take 9) ∧
    (split (ascii "video") (ascii "xframe=1 frame=2") false).2
      = some (ascii "frame=1 frame=2") := by
  decide

/-- C9: at end of stream, when the non-empty remaining data holds no token
boundary (video: no "frame=" at an index > 0; otherwise: no newline), the split
function returns all of it as the token and consumes all of it; on empty
remaining data it returns no token. -/
theorem split_final_token (filetype data : Bytes) (hne : data ≠ [])
    (hb : if filetype = ascii "video"
          then ∀ i, 0 < i → ¬ ascii "frame=" <+: data.drop i
          else (10 : UInt8) ∉ data) :
    split filetype data true = ((data.length : Int), some data) ∧
    split filetype [] true = (0, none) := by
  refine ⟨?_, by simp [split]⟩
  have hlen : ¬ data.length = 0 := by
    intro h
    exact hne (List.length_eq_zero.mp h)
  by_cases hv : filetype = ascii "video"
  · rw [if_pos hv] at hb
    have hI : ¬ Index data (ascii "frame=") > 0 := by
      intro hpos
      cases hx : indexOpt (ascii "frame=") data with
      | none =>
        rw [(Index_eq_neg_one _ _).mpr hx] at hpos
        omega
      | some k =>
        rw [(Index_eq_natCast _ _ _).mpr hx] at hpos
        exact hb k (by exact_mod_cast hpos) (indexOpt_occurs _ _ _ hx)
    simp [split, hlen, hv, hI]
  · rw [if_neg hv] at hb
    have hI : ¬ IndexByte data 10 ≥ 0 := by
      rw [(IndexByte_eq_neg_one _ _).mpr hb]
      omega
    simp only [split, hv, hlen, and_false, if_false, hI]
    simp

theorem split_final_token_witness :
    (split (ascii "video") (ascii "frame=3 done") true
        = (((ascii "frame=3 done").length : Int), some (ascii "frame=3 done")) ∧
      split (ascii "video") [] true = (0, none)) ∧
    (split (ascii "audio") (ascii "size=1 frame=2") true
        = (((ascii "size=1 frame=2").length : Int), some (ascii "size=1 frame=2")) ∧
      split (ascii "audio") [] true = (0, none)) :=
  ⟨split_final_token (ascii "video") (ascii "frame=3 done") (by decide)
      (by rw [if_pos rfl]; exact no_later_occurrence _ _ (by decide)),
   split_final_token (ascii "audio") (ascii "size=1 frame=2") (by decide)
      (by rw [if_neg (by decide)]; decide)⟩

/-! ### The scanner loop -/

theorem Scanner.read_fed (s : Scanner) (herr : s.err = none)
    (hroom : s.start + s.win.length < s.cap) :
    ∃ s1, s.read = ScanStep.more s1 ∧ s.Fed s1 := by
  obtain ⟨⟨data, chunks⟩, M, cap, start, win, err⟩ := s
  simp only at herr hroom
  subst herr
  unfold Scanner.read Reader.Read
  by_cases hd : data = []
  · subst hd
    simp only [if_true]
    refine ⟨_, rfl, ?_⟩
    simp [Scanner.Fed, Scanner.setErr]
    omega
  · simp only [hd, if_false]
    have hlen : 0 < data.length := List.length_pos.mpr hd
    generalize hw : (match chunks with
      | [] => cap - (start + win.length)
      | c :: _ => max c 1) = want
    have hwant : 1 ≤ want := by
      subst hw
      split
      · omega
      · omega
    generalize hn : min (min want (cap - (start + win.length))) data.length = n
    have hroom1 : 1 ≤ cap - (start + win.length) := by omega
    have hn1 : 1 ≤ n := hn ▸ Nat.le_min.mpr ⟨Nat.le_min.mpr ⟨hwant, hroom1⟩, hlen⟩
    have hn2 : n ≤ cap - (start + win.length) :=
      hn ▸ le_trans (Nat.min_le_left _ _) (Nat.min_le_right _ _)
    have hn3 : n ≤ data.length := hn ▸ Nat.min_le_right _ _
    have htake : ¬ List.take n data = [] := by
      intro h
      have := congrArg List.length h
      rw [List.length_take, List.length_nil] at this
      clear hn
      omega
    simp only [htake, if_false, Bool.false_eq_true]
    refine ⟨_, rfl, ?_⟩
    refine ⟨rfl, ?_, Or.inr ⟨n, hn1, hn3, rfl, rfl, rfl⟩⟩
    simp only [List.length_append, List.length_take]
    clear hn
    omega

theorem Scanner.fill_fed (s : Scanner) (herr : s.err = none)
    (hinv : s.start + s.win.length ≤ s.cap) (hmax : s.win.length < s.maxTokenSize) :
    ∃ s1, s.fill = ScanStep.more s1 ∧ s.Fed s1 := by
  obtain ⟨r, M, cap, start, win, err⟩ := s
  simp only at herr hinv hmax
  subst herr
  unfold Scanner.fill
  simp only [ne_eq, not_true_eq_false, if_false]
  by_cases hshift : start > 0 ∧ (start + win.length = cap ∨ start > cap / 2)
  · simp only [if_pos hshift]
    have hfull : ¬ (0 + win.length = cap) := by omega
    simp only [if_neg hfull]
    obtain ⟨s1, h1, h2⟩ := Scanner.read_fed
      { r := r, maxTokenSize := M, cap := cap, start := 0, win := win, err := none }
      rfl (by simp only; omega)
    exact ⟨s1, h1, h2⟩
  · simp only [if_neg hshift]
    by_cases hfull : start + win.length = cap
    · have hstart : start = 0 := by
        by_contra hne
        exact hshift ⟨by omega, Or.inl hfull⟩
      have hcap : ¬ cap ≥ M := by omega
      simp only [if_pos hfull, if_neg hcap]
      obtain ⟨s1, h1, h2⟩ := Scanner.read_fed
        { r := r, maxTokenSize := M,
          cap := min (if cap * 2 = 0 then 4096 else cap * 2) M,
          start := 0, win := win, err := none } rfl (by
          simp only
          split <;> omega)
      exact ⟨s1, h1, h2⟩
    · simp only [if_neg hfull]
      obtain ⟨s1, h1, h2⟩ := Scanner.read_fed
        { r := r, maxTokenSize := M, cap := cap, start := start, win := win, err := none }
        rfl (by simp only; omega)
      exact ⟨s1, h1, h2⟩

/-- When the split function finds no token in the window and no error is
recorded, an iteration of `Scan` reads on. -/
theorem Scanner.step_fed (sp : Bytes → Bool → Int × Option Bytes) (s : Scanner)
    (herr : s.err = none) (hinv : s.start + s.win.length ≤ s.cap)
    (hmax : s.win.length < s.maxTokenSize) (hsp : sp s.win false = (0, none)) :
    ∃ s1, s.step sp = ScanStep.more s1 ∧ s.Fed s1 := by
  obtain ⟨r, M, cap, start, win, err⟩ := s
  simp only at herr hinv hmax hsp
  subst herr
  unfold Scanner.step
  by_cases hw : win = []
  · simp only [hw, ne_eq, not_true_eq_false, or_self, if_false]
    subst hw
    exact Scanner.fill_fed _ rfl hinv hmax
  · simp only [hw, ne_eq, not_false_eq_true, true_or, if_true, not_true_eq_false,
      decide_False, hsp]
    have h0 : ¬ ((0 : Int) > (win.length : Int)) := by omega
    simp only [lt_self_iff_false, if_false, h0, Int.toNat_zero, Nat.add_zero, List.drop_zero]
    exact Scanner.fill_fed _ rfl hinv hmax

/-- When the split function returns a token, the iteration delivers it and
advances the window. -/
theorem Scanner.step_token (sp : Bytes → Bool → Int × Option Bytes) (s : Scanner)
    (n : Nat) (tok : Bytes) (hw : s.win ≠ [] ∨ s.err ≠ none) (hn : n ≤ s.win.length)
    (hsp : sp s.win (decide (s.err ≠ none)) = ((n : Int), some tok)) :
    s.step sp = ScanStep.token tok { s with start := s.start + n, win := s.win.drop n } := by
  unfold Scanner.step
  simp only [hw, if_true, hsp]
  have h0 : ¬ ((n : Int) < 0) := by omega
  have h1 : ¬ ((n : Int) > (s.win.length : Int)) := by omega
  simp only [h0, h1, if_false, Int.toNat_ofNat]

/-- After end of stream with nothing left in the window, `Scan` returns false. -/
theorem Scanner.step_stop (sp : Bytes → Bool → Int × Option Bytes) (s : Scanner)
    (hw : s.win = []) (herr : s.err = some ScanError.EOF) (hsp : sp [] true = (0, none)) :
    ∃ s1, s.step sp = ScanStep.stop s1 := by
  unfold Scanner.step
  simp [hw, herr, hsp, Scanner.fill]

/-! ### Non-video mode: one token per line -/

theorem split_line (ft w : Bytes) (b : Bool) (i : Nat) (hft : ft ≠ ascii "video")
    (hi : indexByteOpt 10 w = some i) :
    split ft w b = (((i + 1 : Nat) : Int), some (w.take i)) := by
  have hI := (IndexByte_eq_natCast w 10 i).mpr hi
  have hne : ¬ (b = true ∧ w.length = 0) := by
    intro hc
    have := List.length_eq_zero.mp hc.2
    subst this
    simp [indexByteOpt] at hi
  have hge : IndexByte w 10 ≥ 0 := by rw [hI]; omega
  simp only [split, if_neg hne, if_neg hft, if_pos hge, hI, Int.toNat_ofNat]
  simp

theorem split_line_none (ft w : Bytes) (hft : ft ≠ ascii "video") (hw : (10 : UInt8) ∉ w) :
    split ft w false = (0, none) := by
  have hI := (IndexByte_eq_neg_one w 10).mpr hw
  have hge : ¬ IndexByte w 10 ≥ 0 := by rw [hI]; omega
  simp [split, hft, hge]

theorem split_empty_eof (ft : Bytes) : split ft [] true = (0, none) := by
  simp [split]

theorem append_cons_unique (c : UInt8) :
    ∀ (a a1 b b1 : Bytes), a ++ c :: b = a1 ++ c :: b1 → c ∉ a → c ∉ a1 → a = a1 ∧ b = b1 := by
  intro a
  induction a with
  | nil =>
    intro a1 b b1 h _ h1
    cases a1 with
    | nil => simpa using h
    | cons x a1 =>
      simp at h
      simp [h.1] at h1
  | cons x a ih =>
    intro a1 b b1 h h0 h1
    cases a1 with
    | nil =>
      simp at h
      simp [h.1] at h0
    | cons y a1 =>
      simp at h h0 h1
      obtain ⟨e1, e2⟩ := ih a1 b b1 h.2 h0.2 h1.2
      simp [h.1, e1, e2]

theorem line_window_token (win data l rest : Bytes) (i : Nat)
    (h : win ++ data = l ++ 10 :: rest) (hl : (10 : UInt8) ∉ l)
    (hi : indexByteOpt 10 win = some i) :
    win.take i = l ∧ win.drop (i + 1) ++ data = rest ∧ i + 1 ≤ win.length := by
  obtain ⟨h1, h2⟩ := indexByteOpt_some 10 win i hi
  have hw : win = win.take i ++ 10 :: win.drop (i + 1) := by
    rw [← h2, List.take_append_drop]
  have hlen : i + 1 ≤ win.length := by
    have := congrArg List.length h2
    simp at this
    omega
  rw [hw, List.append_assoc, List.cons_append] at h
  obtain ⟨e1, e2⟩ := append_cons_unique 10 _ _ _ _ h h1 hl
  exact ⟨e1, e2, hlen⟩

theorem line_window_short (win data l rest : Bytes)
    (h : win ++ data = l ++ 10 :: rest) (hw : (10 : UInt8) ∉ win) :
    win.length ≤ l.length ∧ data ≠ [] := by
  rcases List.append_eq_append_iff.mp h with ⟨a, e1, e2⟩ | ⟨c, e1, e2⟩
  · subst e1
    refine ⟨by simp, ?_⟩
    rw [e2]
    simp
  · cases c with
    | nil =>
      simp at e1 e2
      subst e1
      refine ⟨le_refl _, ?_⟩
      rw [← e2]
      simp
    | cons x c =>
      simp at e2
      rw [e1, ← e2.1] at hw
      simp at hw

theorem joinLines_eq_nil (ls : List Bytes) (h : joinLines ls = []) : ls = [] := by
  cases ls with
  | nil => rfl
  | cons l ls => simp [joinLines] at h

/-- The scanner in non-video mode, started anywhere in a stream of
newline-terminated lines, delivers exactly the remaining lines. -/
theorem scanLoop_lines (ft : Bytes) (hft : ft ≠ ascii "video") :
    ∀ (μ : Nat) (s : Scanner) (ls : List Bytes), s.err = none →
      s.start + s.win.length ≤ s.cap → 0 < s.maxTokenSize →
      s.win ++ s.r.data = joinLines ls →
      (∀ l ∈ ls, (10 : UInt8) ∉ l ∧ l.length < s.maxTokenSize) →
      s.win.length + 2 * s.r.data.length ≤ μ →
      ∀ fuel, μ + 2 ≤ fuel → scanLoop (split ft) fuel s = some ls := by
  intro μ
  induction μ using Nat.strong_induction_on with
  | _ μ ih =>
    intro s ls herr hinv hpos hjoin hls hμ fuel hfuel
    cases ls with
    | nil =>
      simp only [joinLines, List.append_eq_nil] at hjoin
      obtain ⟨f, rfl⟩ : ∃ f, fuel = f + 2 := ⟨fuel - 2, by omega⟩
      have hmax : s.win.length < s.maxTokenSize := by
        rw [hjoin.1]
        exact hpos
      obtain ⟨s1, hstep, hfed⟩ := Scanner.step_fed (split ft) s herr hinv hmax (by
        rw [hjoin.1]; exact split_line_none ft [] hft (by simp))
      rcases hfed with ⟨_, _, ⟨_, hwin, herr1, _⟩ | ⟨n, hn1, hn2, _⟩⟩
      · obtain ⟨s2, hstop⟩ := Scanner.step_stop (split ft) s1 (by rw [hwin, hjoin.1]) herr1
          (split_empty_eof ft)
        simp only [scanLoop, hstep, hstop]
      · rw [hjoin.2] at hn2
        simp at hn2
        omega
    | cons l ls =>
      simp only [joinLines] at hjoin
      have hl := hls l (List.mem_cons_self _ _)
      obtain ⟨f, rfl⟩ : ∃ f, fuel = f + 1 := ⟨fuel - 1, by omega⟩
      cases hi : indexByteOpt 10 s.win with
      | some i =>
        obtain ⟨e1, e2, e3⟩ := line_window_token _ _ _ _ i hjoin hl.1 hi
        have hstep := Scanner.step_token (split ft) s (i + 1) (s.win.take i)
          (Or.inl (by intro h; rw [h] at e3; simp at e3)) e3
          (split_line ft s.win _ i hft hi)
        simp only [scanLoop, hstep]
        have hrec := ih (μ - 1) (by omega)
          { s with start := s.start + (i + 1), win := s.win.drop (i + 1) } ls herr
          (by simp only [List.length_drop]; omega) hpos e2
          (fun x hx => hls x (List.mem_cons_of_mem _ hx))
          (by simp only [List.length_drop]; omega) f (by omega)
        rw [hrec, e1]
        rfl
      | none =>
        have hnot := (indexByteOpt_none 10 s.win).mp hi
        obtain ⟨hshort, hdata⟩ := line_window_short _ _ _ _ hjoin hnot
        obtain ⟨s1, hstep, hfed⟩ := Scanner.step_fed (split ft) s herr hinv (by omega)
          (split_line_none ft _ hft hnot)
        rcases hfed with ⟨hM, hinv1, ⟨hd, _⟩ | ⟨n, hn1, hn2, hwin, hdat, herr1⟩⟩
        · exact absurd hd hdata
        · simp only [scanLoop, hstep]
          apply ih (μ - 1) (by omega) s1 (l :: ls) herr1 hinv1 (by rw [hM]; exact hpos)
          · rw [hwin, hdat, List.append_assoc, List.take_append_drop]
            exact hjoin
          · rw [hM]; exact hls
          · rw [hwin, hdat]
            simp only [List.length_append, List.length_take, List.length_drop]
            omega
          · omega

/-- C3: in non-video mode a stream of N newline-terminated lines, each shorter
than the maximum token size, is scanned into exactly N tokens, in stream order,
the j-th token being the j-th line without its newline, whatever the sizes of
the reads and whatever the lines contain. -/
theorem scanTokens_lines (filetype : Bytes) (lines : List Bytes) (chunks : List Nat)
    (hft : filetype ≠ ascii "video")
    (hlines : ∀ l ∈ lines, (10 : UInt8) ∉ l ∧ l.length < MaxScanTokenSize) :
    scanTokens filetype { data := joinLines lines, chunks := chunks } = some lines := by
  unfold scanTokens scanFuel
  exact scanLoop_lines filetype hft (2 * (joinLines lines).length) _ lines rfl
    (by simp [newScanner]) (by simp [newScanner, MaxScanTokenSize]) (by simp [newScanner])
    (by simpa [newScanner] using hlines) (by simp [newScanner]) _ (by simp)

theorem scanTokens_lines_witness :
    scanTokens (ascii "audio")
      { data := joinLines [ascii "size=1 time=00:00:01.00 bitrate=1k", [], ascii "frame=2 x"],
        chunks := [3, 1, 7] }
      = some [ascii "size=1 time=00:00:01.00 bitrate=1k", [], ascii "frame=2 x"] :=
  scanTokens_lines (ascii "audio") _ [3, 1, 7] (by decide) (by decide)

/-! ### Video mode -/

theorem indexOpt_append (p : Bytes) :
    ∀ (w d : Bytes) (i : Nat), indexOpt p w = some i → indexOpt p (w ++ d) = some i := by
  intro w
  induction w with
  | nil =>
    intro d i h
    simp only [indexOpt] at h
    split at h
    · rename_i hp
      cases h
      subst hp
      cases d <;> simp [indexOpt]
    · cases h
  | cons c w ih =>
    intro d i h
    simp only [indexOpt] at h
    split at h
    · rename_i hc
      cases h
      have hc1 : p <+: c :: w := by simpa using hc
      have : p <+: c :: (w ++ d) := hc1.trans (List.prefix_append (c :: w) d)
      simp [indexOpt, this]
    · rename_i hc
      cases hs : indexOpt p w with
      | none => simp [hs] at h
      | some k =>
        simp [hs] at h
        subst h
        have hlen := indexOpt_add_le p w k hs
        have hc1 : ¬ p <+: c :: w := by simpa using hc
        have hc2 : ¬ p <+: c :: (w ++ d) := by
          intro hp
          apply hc1
          have h1 : c :: w <+: c :: (w ++ d) := List.prefix_append (c :: w) d
          exact List.prefix_of_prefix_length_le hp h1 (by simp; omega)
        simp [indexOpt, hc2, ih d k hs]

theorem Index_append (p w d : Bytes) (i : Nat) (h : Index w p = (i : Int)) :
    Index (w ++ d) p = (i : Int) :=
  (Index_eq_natCast _ _ _).mpr (indexOpt_append p w d i ((Index_eq_natCast _ _ _).mp h))

theorem split_video_none (w : Bytes) (h : ¬ Index w (ascii "frame=") > 0) :
    split (ascii "video") w false = (0, none) := by
  simp [split, h]

theorem split_video_eof (w : Bytes) (hw : w ≠ []) (h : ¬ Index w (ascii "frame=") > 0) :
    split (ascii "video") w true = ((w.length : Int), some w) := by
  have hlen : ¬ w.length = 0 := fun h => hw (List.length_eq_zero.mp h)
  simp [split, h, hlen]

theorem frame_marker_length : (ascii "frame=").length = 6 := by decide

/-- The scanner in video mode, started anywhere in a stream shorter than the
maximum token size, delivers tokens as described by `VideoToks`. -/
theorem scanLoop_video :
    ∀ (μ : Nat) (s : Scanner), s.err = none → s.start + s.win.length ≤ s.cap →
      (s.win ++ s.r.data).length < s.maxTokenSize →
      s.win.length + 2 * s.r.data.length ≤ μ →
      ∀ fuel, μ + 3 ≤ fuel →
        ∃ toks, scanLoop (split (ascii "video")) fuel s = some toks ∧
          VideoToks (s.win ++ s.r.data) toks := by
  intro μ
  induction μ using Nat.strong_induction_on with
  | _ μ ih =>
    intro s herr hinv hlen hμ fuel hfuel
    have hwlen : s.win.length < s.maxTokenSize := by
      simp only [List.length_append] at hlen
      omega
    by_cases hI : Index s.win (ascii "frame=") > 0
    · -- a token is available in the window
      cases hx : indexOpt (ascii "frame=") s.win with
      | none =>
        rw [(Index_eq_neg_one _ _).mpr hx] at hI
        omega
      | some i =>
        have hIi := (Index_eq_natCast _ _ _).mpr hx
        have hi : 0 < i := by
          rw [hIi] at hI
          exact_mod_cast hI
        have hle := indexOpt_add_le _ _ _ hx
        rw [frame_marker_length] at hle
        have hsp : split (ascii "video") s.win (decide (s.err ≠ none))
            = (((i + 1 : Nat) : Int), some (s.win.drop i)) :=
          split_video_found s.win _ i hi hx
        have hstep := Scanner.step_token _ s (i + 1) (s.win.drop i)
          (Or.inl (by intro h; rw [h] at hle; simp at hle)) (by omega) hsp
        obtain ⟨f, rfl⟩ : ∃ f, fuel = f + 1 := ⟨fuel - 1, by omega⟩
        obtain ⟨toks, hrun, hspec⟩ := ih (μ - 1) (by omega)
          { s with start := s.start + (i + 1), win := s.win.drop (i + 1) } herr
          (by simp only [List.length_drop]; omega)
          (by
            simp only [List.length_append, List.length_drop] at hlen ⊢
            omega)
          (by simp only [List.length_drop]; omega) f (by omega)
        refine ⟨s.win.drop i :: toks, ?_, ?_⟩
        · simp only [scanLoop, hstep, hrun]
          rfl
        · refine VideoToks.cons _ i _ _ (Index_append _ _ _ _ hIi) hi ?_
            (indexOpt_occurs _ _ _ hx) ?_
          · rw [List.drop_append_of_le_length (by omega)]
            exact List.prefix_append _ _
          · rw [List.drop_append_of_le_length (by omega)]
            exact hspec
    · -- no token yet
      have hsp := split_video_none s.win hI
      obtain ⟨s1, hstep, hM, hinv1, hfed⟩ := Scanner.step_fed _ s herr hinv hwlen hsp
      rcases hfed with ⟨hd, hwin, herr1, hd1⟩ | ⟨n, hn1, hn2, hwin, hdat, herr1⟩
      · -- end of stream
        rw [hd, List.append_nil]
        by_cases hw : s.win = []
        · obtain ⟨f, rfl⟩ : ∃ f, fuel = f + 2 := ⟨fuel - 2, by omega⟩
          obtain ⟨s2, hstop⟩ := Scanner.step_stop (split (ascii "video")) s1
            (by rw [hwin, hw]) herr1 (split_empty_eof _)
          refine ⟨[], ?_, ?_⟩
          · simp only [scanLoop, hstep, hstop]
          · rw [hw]
            exact VideoToks.done
        · obtain ⟨f, rfl⟩ : ∃ f, fuel = f + 3 := ⟨fuel - 3, by omega⟩
          have hsp1 : split (ascii "video") s1.win (decide (s1.err ≠ none))
              = (((s1.win.length : Nat) : Int), some s.win) := by
            rw [herr1, hwin]
            simpa using split_video_eof s.win hw hI
          have hstep1 := Scanner.step_token _ s1 s1.win.length s.win
            (Or.inr (by rw [herr1]; simp)) (le_refl _) hsp1
          obtain ⟨s3, hstop⟩ := Scanner.step_stop (split (ascii "video"))
            { s1 with start := s1.start + s1.win.length, win := s1.win.drop s1.win.length }
            (by simp) herr1 (split_empty_eof _)
          refine ⟨[s.win], ?_, VideoToks.last _ hw hI⟩
          simp only [scanLoop, hstep, hstep1, hstop]
          rfl
      · -- more of the stream was read
        obtain ⟨f, rfl⟩ : ∃ f, fuel = f + 1 := ⟨fuel - 1, by omega⟩
        have hsame : s1.win ++ s1.r.data = s.win ++ s.r.data := by
          rw [hwin, hdat, List.append_assoc, List.take_append_drop]
        obtain ⟨toks, hrun, hspec⟩ := ih (μ - 1) (by omega) s1 herr1 hinv1
          (by rw [hsame, hM]; exact hlen)
          (by
            rw [hwin, hdat]
            simp only [List.length_append, List.length_take, List.length_drop]
            omega) f (by omega)
        refine ⟨toks, ?_, ?_⟩
        · simp only [scanLoop, hstep, hrun]
        · rw [← hsame]
          exact hspec

/-- In video mode every stream shorter than the maximum token size is scanned to
the end, whatever the sizes of the reads, into tokens described by `VideoToks`. -/
theorem scanTokens_video_spec (stream : Bytes) (chunks : List Nat)
    (hlen : stream.length < MaxScanTokenSize) :
    ∃ toks, scanTokens (ascii "video") { data := stream, chunks := chunks } = some toks ∧
      VideoToks stream toks := by
  unfold scanTokens scanFuel
  have := scanLoop_video (2 * stream.length) (newScanner { data := stream, chunks := chunks })
    rfl (by simp [newScanner]) (by simpa [newScanner] using hlen) (by simp [newScanner])
    (2 * stream.length + 3) (le_refl _)
  simpa [newScanner] using this

theorem occurrences_of_none (p : Bytes) :
    ∀ (s : Bytes), indexOpt p s = none → occurrences p s = [] := by
  intro s
  induction s with
  | nil => intro _; rfl
  | cons c s ih =>
    intro h
    simp only [indexOpt] at h
    split at h
    · cases h
    · rename_i hc
      cases hs : indexOpt p s with
      | some k => simp [hs] at h
      | none => simp [occurrences, hc, ih hs]

theorem occurrences_of_some (p : Bytes) (hp : p ≠ []) :
    ∀ (s : Bytes) (i : Nat), indexOpt p s = some i →
      occurrences p s = i :: (occurrences p (s.drop (i + 1))).map (fun q => q + (i + 1)) := by
  intro s
  induction s with
  | nil =>
    intro i h
    simp [indexOpt, hp] at h
  | cons c s ih =>
    intro i h
    simp only [indexOpt] at h
    split at h
    · rename_i hc
      cases h
      simp [occurrences, hc]
    · rename_i hc
      cases hs : indexOpt p s with
      | none => simp [hs] at h
      | some k =>
        simp [hs] at h
        subst h
        simp [occurrences, hc, ih k hs, Function.comp_def, Nat.add_assoc]

theorem frame_marker_eq : ascii "frame=" = [102, 114, 97, 109, 101, 61] := by decide

theorem drop_after_marker (s : Bytes) (i : Nat) (h : ascii "frame=" <+: s.drop i) :
    s.drop (i + 1) ≠ [] ∧ ¬ ascii "frame=" <+: s.drop (i + 1) := by
  obtain ⟨t, ht⟩ := h
  have e : s.drop (i + 1) = [114, 97, 109, 101, 61] ++ t := by
    have : s.drop (i + 1) = (s.drop i).drop 1 := by
      rw [List.drop_drop]
    rw [this, ← ht, frame_marker_eq]
    rfl
  rw [e, frame_marker_eq]
  refine ⟨by simp, ?_⟩
  intro hp
  obtain ⟨u, hu⟩ := hp
  simp at hu

/-- Token count and token positions in video mode, for a stream that does not
begin with the marker. -/
theorem VideoToks.positions {s : Bytes} {toks : List Bytes} (h : VideoToks s toks) :
    s ≠ [] → ¬ ascii "frame=" <+: s →
      toks.length = (occurrences (ascii "frame=") s).length + 1 ∧
      List.Forall₂ (fun tok q => ascii "frame=" <+: tok ∧ tok <+: s.drop q)
        toks.dropLast (occurrences (ascii "frame=") s) ∧
      (occurrences (ascii "frame=") s = [] → toks = [s]) ∧
      (∀ q, (occurrences (ascii "frame=") s).getLast? = some q →
        toks.getLast? = some (s.drop (q + 1))) := by
  induction h with
  | done => intro h; exact absurd rfl h
  | last s hne hI =>
    intro _ hpre
    have hnone : indexOpt (ascii "frame=") s = none := by
      cases hx : indexOpt (ascii "frame=") s with
      | none => rfl
      | some k =>
        exfalso
        have hk := (Index_eq_natCast _ _ _).mpr hx
        rw [hk] at hI
        have hk0 : k = 0 := by omega
        subst hk0
        exact hpre (by simpa using indexOpt_occurs _ _ _ hx)
    rw [occurrences_of_none _ _ hnone]
    simp
  | cons s i tok toks hI hi htok hmark _ ih =>
    intro _ _
    have hx := (Index_eq_natCast _ _ _).mp hI
    obtain ⟨hne1, hpre1⟩ := drop_after_marker s i (indexOpt_occurs _ _ _ hx)
    obtain ⟨h1, h2, h3, h4⟩ := ih hne1 hpre1
    have hocc := occurrences_of_some (ascii "frame=") (by decide) s i hx
    have htoks : toks ≠ [] := by
      intro e
      rw [e] at h1
      simp at h1
    rw [hocc]
    refine ⟨by simp [h1], ?_, by simp, ?_⟩
    · rw [List.dropLast_cons_of_ne_nil htoks]
      refine List.Forall₂.cons ⟨hmark, htok⟩ ?_
      rw [List.forall₂_map_right_iff]
      refine h2.imp ?_
      intro a b hab
      refine ⟨hab.1, ?_⟩
      have e : List.drop b (List.drop (i + 1) s) = List.drop (b + (i + 1)) s := by
        rw [List.drop_drop]
        congr 1
        omega
      rw [← e]
      exact hab.2
    · intro q hq
      obtain ⟨t0, ts, rfl⟩ := List.exists_cons_of_ne_nil htoks
      rw [List.getLast?_cons_cons]
      cases hocc1 : occurrences (ascii "frame=") (List.drop (i + 1) s) with
      | nil =>
        rw [hocc1] at hq
        simp at hq
        subst hq
        rw [h3 hocc1]
        rfl
      | cons o os =>
        rw [hocc1, List.map_cons, List.getLast?_cons_cons] at hq
        have hq1 : ((o :: os).map (fun q => q + (i + 1))).getLast? = some q := hq
        rw [List.getLast?_map] at hq1
        clear hq
        rename' hq1 => hq
        cases hlast : (o :: os).getLast? with
        | none => simp [hlast] at hq
        | some q1 =>
          rw [hlast] at hq
          simp at hq
          subst hq
          rw [h4 q1 (by rw [hocc1]; exact hlast), List.drop_drop]
          congr 2
          omega

theorem indexOpt_at_head (p s : Bytes) (h : p <+: s) : indexOpt p s = some 0 := by
  cases s with
  | nil =>
    have : p = [] := by simpa using h
    simp [indexOpt, this]
  | cons c s =>
    have : p.isPrefixOf (c :: s) = true := by simpa using h
    simp [indexOpt, this]

theorem VideoToks.of_marker_first {s : Bytes} {toks : List Bytes} (h : VideoToks s toks) :
    ascii "frame=" <+: s → toks = [s] := by
  induction h with
  | done => intro hpre; simp [frame_marker_eq] at hpre
  | last _ _ _ => intro _; rfl
  | cons s i tok toks hI hi _ _ _ _ =>
    intro hpre
    have h0 := (Index_eq_natCast _ _ _).mpr (indexOpt_at_head _ _ hpre)
    rw [h0] at hI
    have : i = 0 := by exact_mod_cast hI.symm
    omega

/-- C2 (amended): a video-classified stream shorter than the maximum token size
is scanned to its end whatever the sizes of the reads.  If it begins with
"frame=" it yields exactly one token, the whole stream.  Otherwise, with k
occurrences of "frame=", it yields exactly k + 1 tokens: the j-th of the first k
begins with the marker, at the position of the j-th occurrence, and the last one
is the rest of the stream one byte after the start of the last occurrence (the
whole stream when k = 0). -/
theorem scanTokens_video_count (stream : Bytes) (chunks : List Nat) (hne : stream ≠ [])
    (hlen : stream.length < MaxScanTokenSize) :
    ∃ toks, scanTokens (ascii "video") { data := stream, chunks := chunks } = some toks ∧
      (ascii "frame=" <+: stream → toks = [stream]) ∧
      (¬ ascii "frame=" <+: stream →
        toks.length = (occurrences (ascii "frame=") stream).length + 1 ∧
        List.Forall₂ (fun tok q => ascii "frame=" <+: tok ∧ tok <+: stream.drop q)
          toks.dropLast (occurrences (ascii "frame=") stream) ∧
        (occurrences (ascii "frame=") stream = [] → toks = [stream]) ∧
        (∀ q, (occurrences (ascii "frame=") stream).getLast? = some q →
          toks.getLast? = some (stream.drop (q + 1)))) := by
  obtain ⟨toks, hrun, hspec⟩ := scanTokens_video_spec stream chunks hlen
  exact ⟨toks, hrun, hspec.of_marker_first, hspec.positions hne⟩

theorem scanTokens_video_count_witness :
    ∃ toks, scanTokens (ascii "video")
        { data := ascii "xframe=1 ... frame=2 ... frame=3", chunks := [3, 1, 4] } = some toks ∧
      (ascii "frame=" <+: ascii "xframe=1 ... frame=2 ... frame=3" →
        toks = [ascii "xframe=1 ... frame=2 ... frame=3"]) ∧
      (¬ ascii "frame=" <+: ascii "xframe=1 ... frame=2 ... frame=3" →
        toks.length
          = (occurrences (ascii "frame=") (ascii "xframe=1 ... frame=2 ... frame=3")).length + 1 ∧
        List.Forall₂
          (fun tok q => ascii "frame=" <+: tok ∧
            tok <+: (ascii "xframe=1 ... frame=2 ... frame=3").drop q)
          toks.dropLast (occurrences (ascii "frame=") (ascii "xframe=1 ... frame=2 ... frame=3")) ∧
        (occurrences (ascii "frame=") (ascii "xframe=1 ... frame=2 ... frame=3") = [] →
          toks = [ascii "xframe=1 ... frame=2 ... frame=3"]) ∧
        (∀ q, (occurrences (ascii "frame=")
            (ascii "xframe=1 ... frame=2 ... frame=3")).getLast? = some q →
          toks.getLast? = some ((ascii "xframe=1 ... frame=2 ... frame=3").drop (q + 1)))) :=
  scanTokens_video_count (ascii "xframe=1 ... frame=2 ... frame=3") [3, 1, 4]
    (by decide) (by decide)

/-- C2 (as stated) fails on its own witness: the stream
"frame=1 ... frame=2 ... frame=3" has no newline and 3 occurrences of "frame=",
but it is scanned into a single token, the whole stream (the first occurrence is
at index 0, which `split` does not treat as a boundary). -/
theorem scanTokens_video_count_counterexample :
    (10 : UInt8) ∉ ascii "frame=1 ... frame=2 ... frame=3" ∧
    (occurrences (ascii "frame=") (ascii "frame=1 ... frame=2 ... frame=3")).length = 3 ∧
    scanTokens (ascii "video") { data := ascii "frame=1 ... frame=2 ... frame=3", chunks := [] }
      = some [ascii "frame=1 ... frame=2 ... frame=3"] := by
  decide

/-! ### Termination of the scan -/

theorem Scanner.fill_cases (s : Scanner) (herr : s.err = none)
    (hinv : s.start + s.win.length ≤ s.cap) :
    (∃ s1, s.fill = ScanStep.stop s1) ∨ (∃ s1, s.fill = ScanStep.more s1 ∧ s.Fed s1) := by
  by_cases hmax : s.win.length < s.maxTokenSize
  · exact Or.inr (Scanner.fill_fed s herr hinv hmax)
  · obtain ⟨r, M, cap, start, win, err⟩ := s
    simp only at herr hinv hmax
    subst herr
    unfold Scanner.fill
    simp only [ne_eq, not_true_eq_false, if_false]
    by_cases hshift : start > 0 ∧ (start + win.length = cap ∨ start > cap / 2)
    · simp only [if_pos hshift]
      have hfull : ¬ (0 + win.length = cap) := by omega
      simp only [if_neg hfull]
      exact Or.inr (Scanner.read_fed
        { r := r, maxTokenSize := M, cap := cap, start := 0, win := win, err := none }
        rfl (by simp only; omega))
    · simp only [if_neg hshift]
      by_cases hfull : start + win.length = cap
      · have hcap : cap ≥ M := by omega
        simp only [if_pos hfull, if_pos hcap]
        exact Or.inl ⟨_, rfl⟩
      · simp only [if_neg hfull]
        exact Or.inr (Scanner.read_fed
          { r := r, maxTokenSize := M, cap := cap, start := start, win := win, err := none }
          rfl (by simp only; omega))

theorem split_line_eof (ft w : Bytes) (hft : ft ≠ ascii "video") (hw : w ≠ [])
    (h : (10 : UInt8) ∉ w) : split ft w true = ((w.length : Int), some w) := by
  have hI : ¬ IndexByte w 10 ≥ 0 := by
    rw [(IndexByte_eq_neg_one _ _).mpr h]
    omega
  have hlen : ¬ w.length = 0 := fun e => hw (List.length_eq_zero.mp e)
  simp [split, hft, hI, hlen]

/-- The split function either returns no token and does not advance, or returns
a token and advances by at least one byte and at most the length of the data;
at end of stream it returns a token for non-empty data. -/
theorem split_cases (ft w : Bytes) (b : Bool) :
    (split ft w b = (0, none) ∧ (b = true → w = [])) ∨
    (∃ (n : Nat) (tok : Bytes), split ft w b = ((n : Int), some tok) ∧ 1 ≤ n ∧ n ≤ w.length) := by
  by_cases h0 : b = true ∧ w.length = 0
  · left
    have hw : w = [] := List.length_eq_zero.mp h0.2
    subst hw
    simp [split, h0.1]
  · have hne : b = true → w ≠ [] ∧ 1 ≤ w.length := by
      intro hb
      have : ¬ w.length = 0 := fun e => h0 ⟨hb, e⟩
      exact ⟨fun e => this (by rw [e]; rfl), by omega⟩
    by_cases hv : ft = ascii "video"
    · subst hv
      by_cases hI : Index w (ascii "frame=") > 0
      · right
        cases hx : indexOpt (ascii "frame=") w with
        | none =>
          rw [(Index_eq_neg_one _ _).mpr hx] at hI
          omega
        | some i =>
          rw [(Index_eq_natCast _ _ _).mpr hx] at hI
          have hi : 0 < i := by exact_mod_cast hI
          have hle := indexOpt_add_le _ _ _ hx
          rw [frame_marker_length] at hle
          exact ⟨i + 1, w.drop i, split_video_found w b i hi hx, by omega, by omega⟩
      · cases b with
        | false => left; simp [split, hI]
        | true =>
          right
          exact ⟨w.length, w, split_video_eof w (hne rfl).1 hI, (hne rfl).2, le_refl _⟩
    · cases hx : indexByteOpt 10 w with
      | none =>
        have hnot := (indexByteOpt_none 10 w).mp hx
        cases b with
        | false => left; exact ⟨split_line_none ft w hv hnot, by simp⟩
        | true =>
          right
          exact ⟨w.length, w, split_line_eof ft w hv (hne rfl).1 hnot, (hne rfl).2, le_refl _⟩
      | some i =>
        right
        have hlen : i + 1 ≤ w.length := by
          have := congrArg List.length (indexByteOpt_some 10 w i hx).2
          simp at this
          omega
        exact ⟨i + 1, w.take i, split_line ft w b i hv hx, by omega, hlen⟩

/-- Bound on the number of scanner iterations still to come. -/
theorem scanLoop_total (ft : Bytes) :
    ∀ (μ : Nat) (s : Scanner), (s.err = none ∨ s.err = some ScanError.EOF) →
      s.start + s.win.length ≤ s.cap →
      s.win.length + 2 * s.r.data.length + (if s.err = none then 1 else 0) ≤ μ →
      ∀ fuel, μ + 1 ≤ fuel → ∃ toks, scanLoop (split ft) fuel s = some toks := by
  intro μ
  induction μ using Nat.strong_induction_on with
  | _ μ ih =>
    intro s herr hinv hμ fuel hfuel
    obtain ⟨f, rfl⟩ : ∃ f, fuel = f + 1 := ⟨fuel - 1, by omega⟩
    rcases split_cases ft s.win (decide (s.err ≠ none)) with ⟨hsp, hemp⟩ | ⟨n, tok, hsp, hn1, hn2⟩
    · -- no token
      rcases herr with herr | herr
      · have hfalse : decide (s.err ≠ none) = false := by simp [herr]
        rw [hfalse] at hsp
        have hstep : s.step (split ft) = s.fill := by
          obtain ⟨r, M, cap, start, win, err⟩ := s
          simp only at herr hsp
          subst herr
          unfold Scanner.step
          by_cases hw : win = []
          · simp [hw]
          · have h0 : ¬ ((0 : Int) > (win.length : Int)) := by omega
            simp only [hw, ne_eq, not_false_eq_true, true_or, if_true, not_true_eq_false,
              decide_False, hsp, lt_self_iff_false, if_false, h0, Int.toNat_zero, Nat.add_zero,
              List.drop_zero]
        rcases Scanner.fill_cases s herr hinv with ⟨s1, hstop⟩ | ⟨s1, hmore, hM, hinv1, hfed⟩
        · exact ⟨[], by simp only [scanLoop, hstep, hstop]⟩
        · rcases hfed with ⟨hd, hwin, herr1, hd1⟩ | ⟨k, hk1, hk2, hwin, hdat, herr1⟩
          · obtain ⟨toks, hrun⟩ := ih (μ - 1) (by simp [herr] at hμ; omega) s1 (Or.inr herr1)
              hinv1 (by simp [herr, herr1, hwin, hd, hd1] at hμ ⊢; omega) f (by
                simp [herr] at hμ; omega)
            exact ⟨toks, by simp only [scanLoop, hstep, hmore, hrun]⟩
          · obtain ⟨toks, hrun⟩ := ih (μ - 1) (by simp [herr] at hμ; omega) s1 (Or.inl herr1)
              hinv1 (by
                rw [hwin, hdat]
                simp only [herr, herr1, if_true, List.length_append, List.length_take,
                  List.length_drop] at hμ ⊢
                omega) f (by simp [herr] at hμ; omega)
            exact ⟨toks, by simp only [scanLoop, hstep, hmore, hrun]⟩
      · have hw : s.win = [] := hemp (by simp [herr])
        obtain ⟨s1, hstop⟩ := Scanner.step_stop (split ft) s hw herr (split_empty_eof ft)
        exact ⟨[], by simp only [scanLoop, hstop]⟩
    · -- a token
      have hw : s.win ≠ [] := by
        intro e
        rw [e] at hn2
        simp at hn2
        omega
      have hstep := Scanner.step_token (split ft) s n tok (Or.inl hw) hn2 hsp
      obtain ⟨toks, hrun⟩ := ih (μ - 1) (by omega)
        { s with start := s.start + n, win := s.win.drop n } herr
        (by simp only [List.length_drop]; omega)
        (by simp only [List.length_drop]; omega) f (by omega)
      exact ⟨tok :: toks, by simp only [scanLoop, hstep, hrun]; rfl⟩

/-- The scan of `Output` always ends within the granted number of iterations:
for every stream kind, stream and read sizes it delivers a list of tokens. -/
theorem scanTokens_total (filetype : Bytes) (pipe : Reader) :
    ∃ toks, scanTokens filetype pipe = some toks := by
  unfold scanTokens scanFuel
  exact scanLoop_total filetype (2 * pipe.data.length + 1) (newScanner pipe) (Or.inl rfl)
    (by simp [newScanner]) (by simp [newScanner]) _ (by omega)

/-! ### The loop over the tokens -/

theorem F64.eq_self (x : F64) (h : x.isNaN = false) : F64.eq x x = true := by
  cases x with
  | nan => simp [F64.isNaN] at h
  | inf s => simp [F64.eq]
  | fin s m e => simp [F64.eq]

theorem F64.eq_symm (x y : F64) (h : F64.eq x y = true) : F64.eq y x = true := by
  cases x <;> cases y <;>
    simp only [F64.eq, Bool.or_eq_true, Bool.and_eq_true, beq_iff_eq] at h ⊢ <;>
    first
      | exact h
      | exact h.symm
      | exact h.elim (fun ⟨a, b⟩ => Or.inl ⟨b, a⟩)
          (fun ⟨⟨a, b⟩, c⟩ => Or.inr ⟨⟨a.symm, b.symm⟩, c.symm⟩)

theorem F64.eq_comm (x y : F64) : F64.eq x y = F64.eq y x := by
  cases h1 : F64.eq x y with
  | true => exact (F64.eq_symm x y h1).symm
  | false =>
    cases h2 : F64.eq y x with
    | false => rfl
    | true =>
      rw [F64.eq_symm y x h2] at h1
      cases h1

theorem F64.eq_trans_fin {s1 s2 s3 : Bool} {m1 m2 m3 : Nat} {e1 e2 e3 : Int}
    (h1 : m1 = 0 ∧ m2 = 0 ∨ (s1 = s2 ∧ m1 = m2) ∧ e1 = e2)
    (h2 : m2 = 0 ∧ m3 = 0 ∨ (s2 = s3 ∧ m2 = m3) ∧ e2 = e3) :
    m1 = 0 ∧ m3 = 0 ∨ (s1 = s3 ∧ m1 = m3) ∧ e1 = e3 := by
  rcases h1 with ⟨a, b⟩ | ⟨⟨a, b⟩, c⟩ <;> rcases h2 with ⟨d, f⟩ | ⟨⟨d, f⟩, g⟩
  · exact Or.inl ⟨a, f⟩
  · exact Or.inl ⟨a, by rw [← f]; exact b⟩
  · exact Or.inl ⟨by rw [b]; exact d, f⟩
  · exact Or.inr ⟨⟨a.trans d, b.trans f⟩, c.trans g⟩

theorem F64.eq_trans (x y z : F64) (h1 : F64.eq x y = true) (h2 : F64.eq y z = true) :
    F64.eq x z = true := by
  cases x <;> cases y <;> cases z <;>
    simp only [F64.eq, Bool.or_eq_true, Bool.and_eq_true, beq_iff_eq] at h1 h2 ⊢ <;>
    first
      | exact h1.trans h2
      | exact Bool.noConfusion h1
      | exact Bool.noConfusion h2
      | exact F64.eq_trans_fin h1 h2

theorem F64.eq_not_nan (x y : F64) (h : F64.eq x y = true) : x.isNaN = false ∧ y.isNaN = false := by
  cases x <;> cases y <;> simp [F64.eq, F64.isNaN] at h ⊢

theorem F64.round_zero (neg : Bool) (d : Nat) : F64.round neg 0 d = F64.fin neg 0 0 := by
  simp [F64.round]

theorem tokenStep_none (duration : Bytes) (last : F64) (line : Bytes)
    (h : parseLine duration line = none) : tokenStep duration last line = (last, none) := by
  simp [tokenStep, h]

theorem emitLoop_cons_none (duration : Bytes) (last : F64) (line : Bytes) (rest : List Bytes)
    (h : parseLine duration line = none) :
    emitLoop duration last (line :: rest) = emitLoop duration last rest := by
  simp [emitLoop, tokenStep_none duration last line h]

theorem emitLoop_append_none (duration : Bytes) (last : F64) (rest : List Bytes) :
    ∀ (mid : List Bytes), (∀ l ∈ mid, parseLine duration l = none) →
      emitLoop duration last (mid ++ rest) = emitLoop duration last rest := by
  intro mid
  induction mid with
  | nil => intro _; rfl
  | cons l mid ih =>
    intro h
    rw [List.cons_append, emitLoop_cons_none _ _ _ _ (h l (List.mem_cons_self _ _))]
    exact ih (fun x hx => h x (List.mem_cons_of_mem _ hx))

/-- C10: a token that lacks "time=" or "bitrate=" is discarded: nothing is sent
for it and `lastProgress` keeps its value, so the rest of the stream is handled
as if the token were not there; an update is produced only for a token that
contains both. -/
theorem tokenStep_candidate_filter (duration : Bytes) (last : F64) (line : Bytes)
    (h : (Contains line (ascii "time=") && Contains line (ascii "bitrate=")) = false) :
    parseLine duration line = none ∧
    tokenStep duration last line = (last, none) ∧
    ∀ rest, emitLoop duration last (line :: rest) = emitLoop duration last rest := by
  have hp : parseLine duration line = none := by simp [parseLine, h]
  exact ⟨hp, tokenStep_none _ _ _ hp, fun rest => emitLoop_cons_none _ _ _ rest hp⟩

theorem tokenStep_candidate_filter_witness :
    parseLine (ascii "10") (ascii "frame=7 time=00:00:05.00 size=12") = none ∧
    tokenStep (ascii "10") (F64.ofNat 20) (ascii "frame=7 time=00:00:05.00 size=12")
      = (F64.ofNat 20, none) ∧
    ∀ rest, emitLoop (ascii "10") (F64.ofNat 20)
        (ascii "frame=7 time=00:00:05.00 size=12" :: rest)
      = emitLoop (ascii "10") (F64.ofNat 20) rest :=
  tokenStep_candidate_filter (ascii "10") (F64.ofNat 20)
    (ascii "frame=7 time=00:00:05.00 size=12") (by decide)

theorem emitLoop_chain (duration : Bytes) :
    ∀ (toks : List Bytes) (last : F64),
      List.Chain (fun x y => F64.ne y x = true) last
        ((emitLoop duration last toks).map Progress.Progress) := by
  intro toks
  induction toks with
  | nil => intro last; simp [emitLoop]
  | cons line rest ih =>
    intro last
    unfold emitLoop tokenStep
    cases hp : parseLine duration line with
    | none => simpa using ih last
    | some p =>
      by_cases hne : F64.ne p.Progress last = true
      · simp only [hne, if_true, List.map_cons]
        exact List.Chain.cons hne (ih p.Progress)
      · simp only [hne]
        simpa using ih last

theorem tokenStep_same (duration : Bytes) (last : F64) (l1 l2 : Bytes) (p1 p2 : Progress)
    (h1 : parseLine duration l1 = some p1) (h2 : parseLine duration l2 = some p2)
    (hsame : F64.eq p1.Progress p2.Progress = true) :
    tokenStep duration (tokenStep duration last l1).1 l2
      = ((tokenStep duration last l1).1, none) := by
  have hlast : F64.eq p2.Progress (tokenStep duration last l1).1 = true := by
    unfold tokenStep
    rw [h1]
    by_cases hne : F64.ne p1.Progress last = true
    · simp only [hne, if_true]
      rw [F64.eq_comm]
      exact hsame
    · simp only [hne]
      have : F64.eq p1.Progress last = true := by simpa [F64.ne] using hne
      exact F64.eq_trans _ _ _ (by rw [F64.eq_comm]; exact hsame) this
  generalize (tokenStep duration last l1).1 = last1 at hlast ⊢
  simp [tokenStep, h2, F64.ne, hlast]

/-- C6: an update is sent only when its percentage differs (Go `!=`) from the
remembered one, which is the percentage of the last update sent (initially the
given `last`); hence two updates sent one after the other never carry the same
non-NaN percentage; and of two consecutive candidate tokens with equal
percentages (non-candidate tokens may lie between them) the second is never
sent and leaves no trace. -/
theorem emitLoop_dedup (duration : Bytes) (last : F64) (toks : List Bytes) :
    List.Chain (fun x y => F64.ne y x = true) last
      ((emitLoop duration last toks).map Progress.Progress) ∧
    List.Chain' (fun x y => x.Progress.isNaN = false → x.Progress ≠ y.Progress)
      (emitLoop duration last toks) ∧
    (∀ (l1 l2 : Bytes) (mid rest : List Bytes) (p1 p2 : Progress),
      parseLine duration l1 = some p1 → parseLine duration l2 = some p2 →
      (∀ l ∈ mid, parseLine duration l = none) →
      F64.eq p1.Progress p2.Progress = true →
      emitLoop duration last (l1 :: (mid ++ l2 :: rest))
        = emitLoop duration last (l1 :: (mid ++ rest))) := by
  refine ⟨emitLoop_chain duration toks last, ?_, ?_⟩
  · have h := emitLoop_chain duration toks last
    have h2 : List.Chain' (fun x y => F64.ne y x = true)
        ((emitLoop duration last toks).map Progress.Progress) := by
      cases hl : (emitLoop duration last toks).map Progress.Progress with
      | nil => exact List.chain'_nil
      | cons a l =>
        rw [hl] at h
        cases h with
        | cons _ ht => exact ht
    rw [List.chain'_map] at h2
    refine h2.imp ?_
    intro a b hab hnan heq
    rw [← heq, F64.ne, F64.eq_self _ hnan] at hab
    simp at hab
  · intro l1 l2 mid rest p1 p2 h1 h2 hmid hsame
    have hstep := tokenStep_same duration last l1 l2 p1 p2 h1 h2 hsame
    have key : ∀ last1, tokenStep duration last1 l2 = (last1, none) →
        emitLoop duration last1 (mid ++ l2 :: rest) = emitLoop duration last1 (mid ++ rest) := by
      intro last1 hl
      rw [emitLoop_append_none _ _ _ mid hmid, emitLoop_append_none _ _ _ mid hmid]
      simp [emitLoop, hl]
    unfold emitLoop
    generalize tokenStep duration last l1 = r at hstep ⊢
    obtain ⟨last1, o⟩ := r
    cases o with
    | none => exact key last1 hstep
    | some p => simp only; rw [key last1 hstep]

theorem emitLoop_dedup_witness :
    emitLoop (ascii "20") F64.zero
        (ascii "frame=1 time=00:00:02.00 bitrate=100k" ::
          ([ascii "Press [q] to stop"] ++ ascii "frame=1 time=00:00:02.00 bitrate=101k" ::
            [ascii "frame=2 time=00:00:04.00 bitrate=100k"]))
      = emitLoop (ascii "20") F64.zero
        (ascii "frame=1 time=00:00:02.00 bitrate=100k" ::
          ([ascii "Press [q] to stop"] ++ [ascii "frame=2 time=00:00:04.00 bitrate=100k"])) :=
  (emitLoop_dedup (ascii "20") F64.zero []).2.2
    (ascii "frame=1 time=00:00:02.00 bitrate=100k")
    (ascii "frame=1 time=00:00:02.00 bitrate=101k")
    [ascii "Press [q] to stop"] [ascii "frame=2 time=00:00:04.00 bitrate=100k"]
    { FramesProcessed := ascii "1", CurrentTime := ascii "00:00:02.00",
      CurrentBitrate := ascii "100k", Progress := F64.ofNat 10 }
    { FramesProcessed := ascii "1", CurrentTime := ascii "00:00:02.00",
      CurrentBitrate := ascii "101k", Progress := F64.ofNat 10 }
    (by decide!) (by decide!) (by decide!) (by decide!)

theorem parseLine_progress (duration line : Bytes) (p : Progress)
    (hp : parseLine duration line = some p) :
    p.Progress = F64.div (F64.mul (DurToSec p.CurrentTime) (F64.ofNat 100))
      (ParseFloat duration) := by
  unfold parseLine at hp
  split at hp
  · simp only [Option.some.injEq] at hp
    rw [← hp]
  · cases hp

theorem F64.ofNat_hundred : F64.ofNat 100 = F64.fin false (100 * 2 ^ 46) (-46) := by decide!

theorem F64.zero_percent (m : Nat) (e : Int) (hm : 0 < m) :
    F64.div (F64.mul F64.zero (F64.ofNat 100)) (F64.fin false m e) = F64.zero := by
  have h1 : F64.mul F64.zero (F64.ofNat 100) = F64.zero := by
    rw [F64.ofNat_hundred]
    simp only [F64.zero, F64.mul, F64.ofScaled, Nat.zero_mul, F64.round_zero]
    simp
  rw [h1]
  have hm0 : ¬ m = 0 := by omega
  simp only [F64.zero, F64.div, if_neg hm0, Nat.zero_mul, F64.round_zero]
  simp

/-- C7 (amended): a candidate token whose time field is unparsable, so that its
elapsed seconds are zero, with a positive finite total duration, computes the
percentage 0; its update is sent exactly when the remembered percentage
`lastProgress` is not zero.  As `lastProgress` starts at zero, it is not sent
when it is the first candidate of the stream. -/
theorem tokenStep_zero_time (duration line : Bytes) (last : F64) (p : Progress) (m : Nat)
    (e : Int) (hp : parseLine duration line = some p)
    (ht : DurToSec p.CurrentTime = F64.zero)
    (hd : ParseFloat duration = F64.fin false m e) (hm : 0 < m) :
    p.Progress = F64.zero ∧
    tokenStep duration last line
      = (if F64.ne F64.zero last = true then (F64.zero, some p) else (last, none)) ∧
    tokenStep duration F64.zero line = (F64.zero, none) := by
  have h0 : p.Progress = F64.zero := by
    rw [parseLine_progress duration line p hp, ht, hd]
    exact F64.zero_percent m e hm
  refine ⟨h0, ?_, ?_⟩
  · simp only [tokenStep, hp, h0]
  · simp [tokenStep, hp, h0, F64.ne, F64.eq, F64.zero]

theorem tokenStep_zero_time_witness :
    ({ FramesProcessed := [], CurrentTime := ascii "xx", CurrentBitrate := ascii "1",
       Progress := F64.zero } : Progress).Progress = F64.zero ∧
    tokenStep (ascii "10") (F64.ofNat 50) (ascii "time=xx bitrate=1")
      = (if F64.ne F64.zero (F64.ofNat 50) = true then
          (F64.zero, some { FramesProcessed := [], CurrentTime := ascii "xx",
                            CurrentBitrate := ascii "1", Progress := F64.zero })
         else (F64.ofNat 50, none)) ∧
    tokenStep (ascii "10") F64.zero (ascii "time=xx bitrate=1") = (F64.zero, none) :=
  tokenStep_zero_time (ascii "10") (ascii "time=xx bitrate=1") (F64.ofNat 50)
    { FramesProcessed := [], CurrentTime := ascii "xx", CurrentBitrate := ascii "1",
      Progress := F64.zero }
    (10 * 2 ^ 49) (-49) (by decide!) (by decide!) (by decide!) (by decide)

/-- C7 (as stated) fails: in the non-video stream "time=xx bitrate=1\n" of a job
of 10 seconds, the only token is a candidate whose time is unparsable (elapsed
seconds zero, percentage 0), and `Output` sends nothing for it. -/
theorem tokenStep_zero_time_counterexample :
    DurToSec (ascii "xx") = F64.zero ∧
    ParseFloat (ascii "10") = F64.ofNat 10 ∧
    parseLine (ascii "10") (ascii "time=xx bitrate=1")
      = some { FramesProcessed := [], CurrentTime := ascii "xx", CurrentBitrate := ascii "1",
               Progress := F64.zero } ∧
    Output { stdErrPipe := some { data := ascii "time=xx bitrate=1\n", chunks := [] },
             mediafile := some { inputPath := ascii "in.mp3", outputPath := ascii "out.mp3",
                                 metadata := { Streams := [{ CodecType := ascii "audio" }],
                                               Format := { Duration := ascii "10" } } } }
      = some [] := by
  decide!

theorem emitLoop_sublist (duration : Bytes) :
    ∀ (toks : List Bytes) (last : F64),
      List.Sublist (emitLoop duration last toks) (toks.filterMap (parseLine duration)) := by
  intro toks
  induction toks with
  | nil => intro last; simp [emitLoop]
  | cons line rest ih =>
    intro last
    unfold emitLoop tokenStep
    cases hp : parseLine duration line with
    | none =>
      simp only [List.filterMap_cons, hp]
      exact ih last
    | some p =>
      simp only [List.filterMap_cons, hp]
      by_cases hne : F64.ne p.Progress last = true
      · simp only [hne, if_true]
        exact (ih p.Progress).cons₂ p
      · simp only [hne]
        exact (ih last).cons p

/-- C8 (amended): the updates sent are, in order, a subsequence of the updates
built for the candidate tokens in stream order; so their Progress values are
non-decreasing whenever the percentages of the candidate tokens are.  Nothing
else orders them. -/
theorem emitLoop_order (duration : Bytes) (last : F64) (toks : List Bytes) :
    List.Sublist (emitLoop duration last toks) (toks.filterMap (parseLine duration)) ∧
    (List.Pairwise (fun x y => F64.le x.Progress y.Progress = true)
        (toks.filterMap (parseLine duration)) →
      List.Pairwise (fun x y => F64.le x.Progress y.Progress = true)
        (emitLoop duration last toks)) :=
  ⟨emitLoop_sublist duration toks last, fun h => h.sublist (emitLoop_sublist duration toks last)⟩

theorem emitLoop_order_witness :
    List.Pairwise (fun x y => F64.le x.Progress y.Progress = true)
      (emitLoop (ascii "20") F64.zero
        [ascii "frame=1 time=00:00:02.00 bitrate=100k",
         ascii "frame=2 time=00:00:04.00 bitrate=100k"]) :=
  (emitLoop_order (ascii "20") F64.zero
    [ascii "frame=1 time=00:00:02.00 bitrate=100k",
     ascii "frame=2 time=00:00:04.00 bitrate=100k"]).2 (by decide!)

/-- C8 (as stated) fails: for a non-video job of 20 seconds (a positive total
duration) whose stream reports time 4 s and then time 2 s, `Output` sends the
percentages 20 and then 10, and 20 <= 10 is false. -/
theorem emitLoop_order_counterexample :
    ParseFloat (ascii "20") = F64.ofNat 20 ∧
    (Output { stdErrPipe := some
                { data := ascii
                    "frame=1 time=00:00:04.00 bitrate=100k\nframe=2 time=00:00:02.00 bitrate=100k\n",
                  chunks := [] },
              mediafile := some { inputPath := ascii "in.mp3", outputPath := ascii "out.mp3",
                                  metadata := { Streams := [{ CodecType := ascii "audio" }],
                                                Format := { Duration := ascii "20" } } } }).map
        (fun out => out.map Progress.Progress)
      = some [F64.ofNat 20, F64.ofNat 10] ∧
    F64.le (F64.ofNat 20) (F64.ofNat 10) = false := by
  decide!

/-! ### End to end -/

theorem Output_video_marker_first (stream : Bytes) (chunks : List Nat) (mf : Mediafile)
    (hv : CheckFileType mf.metadata.Streams = ascii "video")
    (hpre : ascii "frame=" <+: stream) (hlen : stream.length < MaxScanTokenSize) :
    Output { stdErrPipe := some { data := stream, chunks := chunks }, mediafile := some mf }
      = some (emitLoop mf.metadata.Format.Duration F64.zero [stream]) := by
  obtain ⟨toks, hrun, hspec⟩ := scanTokens_video_spec stream chunks hlen
  have htoks := hspec.of_marker_first hpre
  subst htoks
  simp only [Output, hv, hrun]

theorem emitLoop_single (duration : Bytes) (last : F64) (line : Bytes) :
    (emitLoop duration last [line]).length ≤ 1 := by
  unfold emitLoop
  generalize tokenStep duration last line = r
  obtain ⟨last1, o⟩ := r
  cases o <;> simp [emitLoop]

/-- C5 (amended): for a job of 20 seconds whose stream kind is video, the stream
"frame=1 time=00:00:02.00 bitrate=100k\nframe=2 time=00:00:04.00 bitrate=100k\n"
makes `Output` send exactly one update, with Progress 20.0 (frame 2, time
00:00:04.00), whatever the sizes of the reads, after which the sequence ends.
In general a video stream shorter than the maximum token size that begins with
"frame=" is handled as one single token, so at most one update is sent for it:
the one built from the whole stream. -/
theorem Output_video_lines :
    (∀ (chunks : List Nat) (mf : Mediafile),
      CheckFileType mf.metadata.Streams = ascii "video" →
      mf.metadata.Format.Duration = ascii "20" →
      Output { stdErrPipe := some
                 { data := ascii
                     "frame=1 time=00:00:02.00 bitrate=100k\nframe=2 time=00:00:04.00 bitrate=100k\n",
                   chunks := chunks },
               mediafile := some mf }
        = some [{ FramesProcessed := ascii "2", CurrentTime := ascii "00:00:04.00",
                  CurrentBitrate := ascii "100k", Progress := F64.ofNat 20 }]) ∧
    (∀ (stream : Bytes) (chunks : List Nat) (mf : Mediafile),
      CheckFileType mf.metadata.Streams = ascii "video" →
      ascii "frame=" <+: stream → stream.length < MaxScanTokenSize →
      Output { stdErrPipe := some { data := stream, chunks := chunks }, mediafile := some mf }
          = some (emitLoop mf.metadata.Format.Duration F64.zero [stream]) ∧
        (emitLoop mf.metadata.Format.Duration F64.zero [stream]).length ≤ 1) := by
  constructor
  · intro chunks mf hv hd
    rw [Output_video_marker_first _ chunks mf hv (by decide) (by decide), hd]
    decide!
  · intro stream chunks mf hv hpre hlen
    exact ⟨Output_video_marker_first stream chunks mf hv hpre hlen, emitLoop_single _ _ _⟩

theorem Output_video_lines_witness :
    Output { stdErrPipe := some
               { data := ascii
                   "frame=1 time=00:00:02.00 bitrate=100k\nframe=2 time=00:00:04.00 bitrate=100k\n",
                 chunks := [5, 1, 64] },
             mediafile := some { inputPath := ascii "in.mp4", outputPath := ascii "out.mp4",
                                 metadata := { Streams := [{ CodecType := ascii "audio" },
                                                           { CodecType := ascii "video" }],
                                               Format := { Duration := ascii "20" } } } }
      = some [{ FramesProcessed := ascii "2", CurrentTime := ascii "00:00:04.00",
                CurrentBitrate := ascii "100k", Progress := F64.ofNat 20 }] :=
  Output_video_lines.1 [5, 1, 64] _ (by decide) (by decide)

/-- C5 (as stated) fails: on the scenario's stream, for a video job of 20
seconds, `Output` does not send two updates with Progress 10.0 and 20.0; it
sends a single update with Progress 20.0. -/
theorem Output_video_lines_counterexample :
    (Output { stdErrPipe := some
                { data := ascii
                    "frame=1 time=00:00:02.00 bitrate=100k\nframe=2 time=00:00:04.00 bitrate=100k\n",
                  chunks := [] },
              mediafile := some { inputPath := ascii "in.mp4", outputPath := ascii "out.mp4",
                                  metadata := { Streams := [{ CodecType := ascii "video" }],
                                                Format := { Duration := ascii "20" } } } }).map
        (fun out => out.map Progress.Progress)
      = some [F64.ofNat 20] ∧
    [F64.ofNat 20] ≠ [F64.ofNat 10, F64.ofNat 20] := by
  decide!

/-! ### The parser -/

theorem Contains_infix (a p b : Bytes) : Contains (a ++ (p ++ b)) p = true := by
  unfold Contains
  have h : p <+: (a ++ (p ++ b)).drop a.length := by
    rw [List.drop_left]
    exact List.prefix_append p b
  cases hx : indexOpt p (a ++ (p ++ b)) with
  | none => exact absurd h (indexOpt_none p _ a.length hx)
  | some i =>
    rw [(Index_eq_natCast _ _ _).mpr hx]
    simp

theorem isReSpace_asciiSpace (c : UInt8) (h : asciiSpace c = false) : isReSpace c = false := by
  simp only [asciiSpace, Bool.or_eq_false_iff, decide_eq_false_iff_not] at h
  simp [isReSpace, h]

theorem asciiSpace_of_noSpace (c : UInt8) (w : Bytes) (h : noSpace (c :: w) = true) :
    asciiSpace c = false := by
  simp only [noSpace, Bool.and_eq_true, decide_eq_true_eq] at h
  cases hc : asciiSpace c with
  | false => rfl
  | true => simp [spaceWidth, hc] at h

theorem collapseAux_word :
    ∀ (w : Bytes) (b : Bool) (rest : Bytes), noSpace w = true → (61 : UInt8) ∉ w →
      collapseAux b (w ++ rest) = w ++ collapseAux (b && w.isEmpty) rest := by
  intro w
  induction w with
  | nil => intro b rest _ _; simp
  | cons c w ih =>
    intro b rest hw h61
    have hc := isReSpace_asciiSpace c (asciiSpace_of_noSpace c w hw)
    have hne : ¬ c = 61 := by
      intro e
      exact h61 (by simp [e])
    have hw1 : noSpace w = true := by
      simp only [noSpace, Bool.and_eq_true] at hw
      exact hw.2
    have h61w : (61 : UInt8) ∉ w := fun h => h61 (List.mem_cons_of_mem _ h)
    show collapseAux b (c :: (w ++ rest)) = c :: (w ++ collapseAux (b && (c :: w).isEmpty) rest)
    rw [collapseAux]
    simp only [hc, Bool.and_false, Bool.false_eq_true, if_false, hne, decide_False]
    rw [ih false rest hw1 h61w]
    simp

theorem collapseAux_frame (rest : Bytes) :
    collapseAux false (ascii "frame=" ++ rest) = ascii "frame=" ++ collapseAux true rest := by
  rfl

theorem collapseAux_time (rest : Bytes) :
    collapseAux false (ascii " time=" ++ rest) = ascii " time=" ++ collapseAux true rest := by
  rfl

theorem collapseAux_bitrate (rest : Bytes) :
    collapseAux false (ascii " bitrate=" ++ rest)
      = ascii " bitrate=" ++ collapseAux true rest := by
  rfl

theorem spaceWidth_append (c : UInt8) (w r : Bytes) (h : spaceWidth (c :: w) = 0) :
    spaceWidth (c :: (w ++ 32 :: r)) = 0 := by
  have e1 : ¬ (32 : UInt8) = 0x85 := by decide
  have e2 : ¬ (32 : UInt8) = 0xA0 := by decide
  have e3 : ¬ (32 : UInt8) = 0x9A := by decide
  have e4 : ¬ (32 : UInt8) = 0x80 := by decide
  have e5 : ¬ (32 : UInt8) = 0x81 := by decide
  have e6 : ¬ (32 : UInt8) = 0x9F := by decide
  have e7 : ¬ (0x80 : UInt8) ≤ 32 := by decide
  have e8 : ¬ (32 : UInt8) = 0xA8 := by decide
  have e9 : ¬ (32 : UInt8) = 0xA9 := by decide
  have e10 : ¬ (32 : UInt8) = 0xAF := by decide
  rcases w with _ | ⟨b, _ | ⟨c1, w2⟩⟩
  · cases r <;> simp [spaceWidth, e1, e2, e3, e4, e5] at h ⊢ <;> exact h
  · simp [spaceWidth, e1, e2, e3, e4, e5, e6, e7, e8, e9, e10] at h ⊢
    exact h
  · simpa [spaceWidth] using h

theorem fieldsAux_word :
    ∀ (w cur r : Bytes), noSpace w = true →
      fieldsAux 0 cur (w ++ 32 :: r) = fieldsAux 0 (cur ++ w) (32 :: r) := by
  intro w
  induction w with
  | nil => intro cur r _; simp
  | cons c w ih =>
    intro cur r hw
    simp only [noSpace, Bool.and_eq_true, decide_eq_true_eq] at hw
    have h0 := spaceWidth_append c w r hw.1
    show fieldsAux 0 cur (c :: (w ++ 32 :: r)) = _
    rw [fieldsAux, h0]
    simp only
    rw [ih (cur ++ [c]) r hw.2]
    simp

theorem fieldsAux_word_end :
    ∀ (w cur : Bytes), noSpace w = true → fieldsAux 0 cur w = fieldsAux 0 (cur ++ w) [] := by
  intro w
  induction w with
  | nil => intro cur _; simp
  | cons c w ih =>
    intro cur hw
    simp only [noSpace, Bool.and_eq_true, decide_eq_true_eq] at hw
    conv_lhs => rw [fieldsAux, hw.1]
    simp only
    rw [ih (cur ++ [c]) hw.2]
    simp

theorem fieldsAux_space (cur r : Bytes) (h : cur ≠ []) :
    fieldsAux 0 cur (32 :: r) = cur :: fieldsAux 0 [] r := by
  rw [fieldsAux]
  have : spaceWidth (32 :: r) = 1 := by simp [spaceWidth, asciiSpace]
  rw [this]
  simp [h]

theorem fieldsAux_end (cur : Bytes) (h : cur ≠ []) : fieldsAux 0 cur [] = [cur] := by
  simp [fieldsAux, h]

theorem fieldsAux_frame (rest : Bytes) :
    fieldsAux 0 [] (ascii "frame=" ++ rest) = fieldsAux 0 (ascii "frame=") rest := by
  rfl

theorem fieldsAux_time (rest : Bytes) :
    fieldsAux 0 [] (ascii "time=" ++ rest) = fieldsAux 0 (ascii "time=") rest := by
  rfl

theorem fieldsAux_bitrate (rest : Bytes) :
    fieldsAux 0 [] (ascii "bitrate=" ++ rest) = fieldsAux 0 (ascii "bitrate=") rest := by
  rfl

theorem Split_no_sep (sep : UInt8) : ∀ (w : Bytes), sep ∉ w → Split sep w = [w] := by
  intro w
  induction w with
  | nil => intro _; rfl
  | cons c w ih =>
    intro h
    have hc : ¬ c = sep := fun e => h (by simp [e])
    have hw : sep ∉ w := fun e => h (List.mem_cons_of_mem _ e)
    simp [Split, hc, ih hw]

theorem Split_frame (v : Bytes) (h : (61 : UInt8) ∉ v) :
    Split 61 (ascii "frame=" ++ v) = [ascii "frame", v] := by
  have e : ascii "frame=" ++ v = 102 :: 114 :: 97 :: 109 :: 101 :: 61 :: v := rfl
  rw [e]
  simp [Split, Split_no_sep 61 v h]
  decide

theorem Split_time (v : Bytes) (h : (61 : UInt8) ∉ v) :
    Split 61 (ascii "time=" ++ v) = [ascii "time", v] := by
  have e : ascii "time=" ++ v = 116 :: 105 :: 109 :: 101 :: 61 :: v := rfl
  rw [e]
  simp [Split, Split_no_sep 61 v h]
  decide

theorem Split_bitrate (v : Bytes) (h : (61 : UInt8) ∉ v) :
    Split 61 (ascii "bitrate=" ++ v) = [ascii "bitrate", v] := by
  have e : ascii "bitrate=" ++ v = 98 :: 105 :: 116 :: 114 :: 97 :: 116 :: 101 :: 61 :: v := rfl
  rw [e]
  simp [Split, Split_no_sep 61 v h]
  decide

theorem sp_time (x : Bytes) : ascii " time=" ++ x = 32 :: (ascii "time=" ++ x) := rfl

theorem sp_bitrate (x : Bytes) : ascii " bitrate=" ++ x = 32 :: (ascii "bitrate=" ++ x) := rfl

theorem ReplaceAllString_progress_line (F T B : Bytes) (hF : F ≠ []) (hT : T ≠ [])
    (hB : B ≠ []) (hFs : noSpace F = true) (hTs : noSpace T = true) (hBs : noSpace B = true)
    (hFe : (61 : UInt8) ∉ F) (hTe : (61 : UInt8) ∉ T) (hBe : (61 : UInt8) ∉ B) :
    ReplaceAllString
        (ascii "frame=" ++ (F ++ (ascii " time=" ++ (T ++ (ascii " bitrate=" ++ B)))))
      = ascii "frame=" ++ (F ++ (ascii " time=" ++ (T ++ (ascii " bitrate=" ++ B)))) := by
  have eF : F.isEmpty = false := by cases F <;> simp at hF ⊢
  have eT : T.isEmpty = false := by cases T <;> simp at hT ⊢
  have eB : B.isEmpty = false := by cases B <;> simp at hB ⊢
  have hlast : collapseAux true B = B := by
    have := collapseAux_word B true [] hBs hBe
    simpa [collapseAux] using this
  unfold ReplaceAllString
  rw [collapseAux_frame, collapseAux_word F true _ hFs hFe, eF, Bool.and_false,
    collapseAux_time, collapseAux_word T true _ hTs hTe, eT, Bool.and_false,
    collapseAux_bitrate, hlast]

theorem Fields_progress_line (F T B : Bytes) (hFs : noSpace F = true)
    (hTs : noSpace T = true) (hBs : noSpace B = true) :
    Fields (ascii "frame=" ++ (F ++ (ascii " time=" ++ (T ++ (ascii " bitrate=" ++ B)))))
      = [ascii "frame=" ++ F, ascii "time=" ++ T, ascii "bitrate=" ++ B] := by
  have n1 : ascii "frame=" ++ F ≠ [] := by simp [frame_marker_eq]
  have n2 : ascii "time=" ++ T ≠ [] := by
    have : ascii "time=" = [116, 105, 109, 101, 61] := by decide
    simp [this]
  have n3 : ascii "bitrate=" ++ B ≠ [] := by
    have : ascii "bitrate=" = [98, 105, 116, 114, 97, 116, 101, 61] := by decide
    simp [this]
  unfold Fields
  rw [fieldsAux_frame, sp_time, fieldsAux_word F _ _ hFs, fieldsAux_space _ _ n1,
    fieldsAux_time, sp_bitrate, fieldsAux_word T _ _ hTs, fieldsAux_space _ _ n2,
    fieldsAux_bitrate, fieldsAux_word_end B _ hBs, fieldsAux_end _ n3]

theorem fieldLoop_progress_line (F T B : Bytes) (hFe : (61 : UInt8) ∉ F)
    (hTe : (61 : UInt8) ∉ T) (hBe : (61 : UInt8) ∉ B) :
    fieldLoop [ascii "frame=" ++ F, ascii "time=" ++ T, ascii "bitrate=" ++ B]
      = { framesProcessed := F, currentTime := T, currentBitrate := B } := by
  have d1 : ¬ ascii "frame" = ascii "time" := by decide
  have d2 : ¬ ascii "frame" = ascii "bitrate" := by decide
  have d3 : ¬ ascii "time" = ascii "frame" := by decide
  have d4 : ¬ ascii "time" = ascii "bitrate" := by decide
  have d5 : ¬ ascii "bitrate" = ascii "frame" := by decide
  have d6 : ¬ ascii "bitrate" = ascii "time" := by decide
  simp only [fieldLoop, List.foldl, fieldStep, Split_frame F hFe, Split_time T hTe,
    Split_bitrate B hBe, List.length_cons, List.length_nil, List.getD_cons_zero,
    List.getD_cons_succ, d1, d2, d3, d4, d5, d6, if_true, if_false]
  simp

/-- `ParseFloat` on Go number syntax beyond plain decimals: digit-separating
underscores in mantissa and exponent, hexadecimal mantissas with a binary
exponent, and the strings that `strconv` refuses, which give `+0`. -/
theorem ParseFloat_go_numbers :
    ParseFloat (ascii "1_0") = F64.ofNat 10 ∧
    ParseFloat (ascii "1e1_0") = F64.ofNat 10000000000 ∧
    ParseFloat (ascii "0x1p4") = F64.ofNat 16 ∧
    ParseFloat (ascii "0X.8P1") = F64.ofNat 1 ∧
    ParseFloat (ascii "0x_1p0") = F64.ofNat 1 ∧
    ParseFloat (ascii "20.000000") = F64.ofNat 20 ∧
    ParseFloat (ascii "0x10") = F64.zero ∧
    ParseFloat (ascii "1__0") = F64.zero ∧
    ParseFloat (ascii "1_") = F64.zero ∧
    ParseFloat (ascii "_1") = F64.zero ∧
    ParseFloat (ascii "1e_5") = F64.zero ∧
    ParseFloat (ascii "1e") = F64.zero ∧
    ParseFloat (ascii "1.5.") = F64.zero ∧
    ParseFloat (ascii "N/A") = F64.zero ∧
    ParseFloat (ascii "") = F64.zero ∧
    ParseFloat (ascii "1e400") = F64.inf false ∧
    ParseFloat (ascii "-Infinity") = F64.inf true ∧
    ParseFloat (ascii "NaN") = F64.nan := by decide!

/-- With the total duration written "1_0" or "0xAp0", which Go reads as 10, a
token at five seconds gives Progress 50. -/
theorem parseLine_go_number_duration :
    parseLine (ascii "1_0") (ascii "frame=10 time=00:00:05.00 bitrate=128.0kbits/s")
      = some { FramesProcessed := ascii "10", CurrentTime := ascii "00:00:05.00",
               CurrentBitrate := ascii "128.0kbits/s", Progress := F64.ofNat 50 } ∧
    parseLine (ascii "0xAp0") (ascii "frame=10 time=00:00:05.00 bitrate=128.0kbits/s")
      = some { FramesProcessed := ascii "10", CurrentTime := ascii "00:00:05.00",
               CurrentBitrate := ascii "128.0kbits/s", Progress := F64.ofNat 50 } := by decide!

/-- C4: for a token "frame=F time=T bitrate=B" with F, T, B non-empty, without
white space and without '=', the update built by `Output` has FramesProcessed F,
CurrentTime T, CurrentBitrate B, and Progress (seconds(T) * 100) / total
duration, computed in `float64` without clamping or further rounding. -/
theorem parseLine_fields (F T B duration : Bytes) (hF : F ≠ []) (hT : T ≠ []) (hB : B ≠ [])
    (hFs : noSpace F = true) (hTs : noSpace T = true) (hBs : noSpace B = true)
    (hFe : (61 : UInt8) ∉ F) (hTe : (61 : UInt8) ∉ T) (hBe : (61 : UInt8) ∉ B) :
    parseLine duration (ascii "frame=" ++ F ++ ascii " time=" ++ T ++ ascii " bitrate=" ++ B)
      = some { FramesProcessed := F, CurrentTime := T, CurrentBitrate := B,
               Progress := F64.div (F64.mul (DurToSec T) (F64.ofNat 100))
                 (ParseFloat duration) } := by
  simp only [List.append_assoc]
  have c1 : Contains
      (ascii "frame=" ++ (F ++ (ascii " time=" ++ (T ++ (ascii " bitrate=" ++ B)))))
      (ascii "time=") = true := by
    have := Contains_infix (ascii "frame=" ++ (F ++ [32])) (ascii "time=")
      (T ++ (ascii " bitrate=" ++ B))
    simpa [sp_time] using this
  have c2 : Contains
      (ascii "frame=" ++ (F ++ (ascii " time=" ++ (T ++ (ascii " bitrate=" ++ B)))))
      (ascii "bitrate=") = true := by
    have := Contains_infix (ascii "frame=" ++ (F ++ (ascii " time=" ++ (T ++ [32]))))
      (ascii "bitrate=") B
    simpa [sp_bitrate] using this
  simp only [parseLine, c1, c2, Bool.and_self, if_true,
    ReplaceAllString_progress_line F T B hF hT hB hFs hTs hBs hFe hTe hBe,
    Fields_progress_line F T B hFs hTs hBs, fieldLoop_progress_line F T B hFe hTe hBe]

theorem parseLine_fields_witness :
    parseLine (ascii "10")
        (ascii "frame=" ++ ascii "10" ++ ascii " time=" ++ ascii "00:00:05.00"
          ++ ascii " bitrate=" ++ ascii "128.0kbits/s")
      = some { FramesProcessed := ascii "10", CurrentTime := ascii "00:00:05.00",
               CurrentBitrate := ascii "128.0kbits/s",
               Progress := F64.div (F64.mul (DurToSec (ascii "00:00:05.00")) (F64.ofNat 100))
                 (ParseFloat (ascii "10")) } ∧
    ascii "frame=" ++ ascii "10" ++ ascii " time=" ++ ascii "00:00:05.00"
        ++ ascii " bitrate=" ++ ascii "128.0kbits/s"
      = ascii "frame=10 time=00:00:05.00 bitrate=128.0kbits/s" ∧
    F64.div (F64.mul (DurToSec (ascii "00:00:05.00")) (F64.ofNat 100)) (ParseFloat (ascii "10"))
      = F64.ofNat 50 :=
  ⟨parseLine_fields (ascii "10") (ascii "00:00:05.00") (ascii "128.0kbits/s") (ascii "10")
      (by decide) (by decide) (by decide) (by decide) (by decide) (by decide)
      (by decide) (by decide) (by decide),
   by decide, by decide!⟩

/-! ### `GetCommand`, `Initialize`, `Run` -/

/-- C13: for every media file, `GetCommand` returns a list whose first element
is "-y" and whose remaining elements are the media file's argument list in the
same order, so its length is one more than the length of that list. -/
theorem GetCommand_overwrite_first (ToStrCommand : Mediafile → List Bytes) (t : Transcoder)
    (media : Mediafile) (h : t.mediafile = some media) :
    GetCommand ToStrCommand t = some (ascii "-y" :: ToStrCommand media) ∧
    (ascii "-y" :: ToStrCommand media).head? = some (ascii "-y") ∧
    (ascii "-y" :: ToStrCommand media).tail = ToStrCommand media ∧
    (ascii "-y" :: ToStrCommand media).length = (ToStrCommand media).length + 1 := by
  refine ⟨?_, rfl, rfl, rfl⟩
  simp [GetCommand, h]

theorem GetCommand_overwrite_first_witness :
    GetCommand (fun m => [ascii "-i", m.inputPath, m.outputPath])
        { stdErrPipe := none,
          mediafile := some { inputPath := ascii "in.mp4", outputPath := ascii "out.mp4",
                              metadata := { Streams := [], Format := { Duration := [] } } } }
      = some (ascii "-y" :: [ascii "-i", ascii "in.mp4", ascii "out.mp4"]) ∧
    (ascii "-y" :: [ascii "-i", ascii "in.mp4", ascii "out.mp4"]).head? = some (ascii "-y") ∧
    (ascii "-y" :: [ascii "-i", ascii "in.mp4", ascii "out.mp4"]).tail
      = [ascii "-i", ascii "in.mp4", ascii "out.mp4"] ∧
    (ascii "-y" :: [ascii "-i", ascii "in.mp4", ascii "out.mp4"]).length
      = [ascii "-i", ascii "in.mp4", ascii "out.mp4"].length + 1 :=
  GetCommand_overwrite_first (fun m => [ascii "-i", m.inputPath, m.outputPath]) _
    { inputPath := ascii "in.mp4", outputPath := ascii "out.mp4",
      metadata := { Streams := [], Format := { Duration := [] } } } rfl

/-- C14: when no diagnostic stream is attached (`stdErrPipe` is nil), `Output`
sends nothing and closes its channel, whatever the media file is, a nil one
included: the metadata is not consulted. -/
theorem Output_no_stream (t : Transcoder) (h : t.stdErrPipe = none) : Output t = some [] := by
  simp [Output, h]

theorem Output_no_stream_witness :
    Output { stdErrPipe := none, mediafile := none } = some [] :=
  Output_no_stream { stdErrPipe := none, mediafile := none } rfl

/-- C11 (amended): for every call of `Initialize` with an empty input path in
which `ffmpeg.Configure` succeeds, the call fails with the error "inputPath
missing", leaves the transcoder as it was, and neither probes the file system
nor runs the probe.  When `ffmpeg.Configure` fails, the call returns the error
of `Configure` instead, whatever the input path is. -/
theorem Initialize_input_missing (w : World) (t : Transcoder) (outputPath : Bytes) :
    (∀ configuration, w.Configure = Except.ok configuration →
      Initialize w t [] outputPath
        = { err := some (ascii "error: transcoder.Initialize -> inputPath missing"), t := t,
            log := [Action.Configure] }) ∧
    (∀ err inputPath, w.Configure = Except.error err →
      (Initialize w t inputPath outputPath).err = some err) := by
  constructor
  · intro configuration h
    simp [Initialize, h]
  · intro err inputPath h
    simp [Initialize, h]

theorem Initialize_input_missing_witness :
    Initialize
        { Configure := Except.ok { FfmpegBin := ascii "ffmpeg", FfprobeBin := ascii "ffprobe" },
          notExist := fun _ => true, probe := fun _ _ => (none, []),
          Unmarshal := fun _ => Except.error (ascii "unexpected end of JSON input") }
        { stdErrPipe := none, mediafile := none } [] (ascii "out.mp4")
      = { err := some (ascii "error: transcoder.Initialize -> inputPath missing"),
          t := { stdErrPipe := none, mediafile := none }, log := [Action.Configure] } :=
  (Initialize_input_missing _ _ _).1 _ rfl

/-- C11 (as stated) fails: with an empty input path, when locating the binaries
fails, `Initialize` returns that failure and not the error "inputPath missing". -/
theorem Initialize_input_missing_counterexample :
    (Initialize
        { Configure := Except.error (ascii "exec: \"ffmpeg\": executable file not found"),
          notExist := fun _ => true, probe := fun _ _ => (none, []),
          Unmarshal := fun _ => Except.error (ascii "unexpected end of JSON input") }
        { stdErrPipe := none, mediafile := none } [] (ascii "out.mp4")).err
      = some (ascii "exec: \"ffmpeg\": executable file not found") ∧
    ascii "exec: \"ffmpeg\": executable file not found"
      ≠ ascii "error: transcoder.Initialize -> inputPath missing" := by
  decide

/-- C18: a call of `Initialize` that returns an error leaves the transcoder, its
media file and configuration included, exactly as it was; a call that returns
nil sets both, the media file carrying the given input path, the given output
path and the probed metadata, and the configuration being the one
`ffmpeg.Configure` returned. -/
theorem Initialize_atomic (w : World) (t : Transcoder) (inputPath outputPath : Bytes) :
    ((Initialize w t inputPath outputPath).err ≠ none →
      (Initialize w t inputPath outputPath).t = t) ∧
    ((Initialize w t inputPath outputPath).err = none →
      ∃ configuration md,
        w.Configure = Except.ok configuration ∧
        w.Unmarshal (w.probe configuration.FfprobeBin
          [ascii "-i", inputPath, ascii "-print_format", ascii "json", ascii "-show_format",
           ascii "-show_streams", ascii "-show_error"]).2 = Except.ok md ∧
        (Initialize w t inputPath outputPath).t
          = { t with
              mediafile := some { inputPath := inputPath, outputPath := outputPath,
                                  metadata := md },
              configuration := configuration }) := by
  unfold Initialize
  cases hc : w.Configure with
  | error err => simp
  | ok configuration =>
    simp only
    by_cases hi : inputPath = []
    · simp [hi]
    · simp only [if_neg hi]
      by_cases hn : w.notExist inputPath = true
      · simp [hn]
      · simp only [if_neg hn]
        generalize hp : w.probe configuration.FfprobeBin
          [ascii "-i", inputPath, ascii "-print_format", ascii "json", ascii "-show_format",
           ascii "-show_streams", ascii "-show_error"] = pr
        obtain ⟨e, out⟩ := pr
        cases e with
        | some err => simp
        | none =>
          simp only
          cases hu : w.Unmarshal out with
          | error err => simp
          | ok Metadata => simp [hp, hu]

theorem Initialize_atomic_witness :
    ∃ configuration md,
      (Except.ok { FfmpegBin := ascii "ffmpeg", FfprobeBin := ascii "ffprobe" }
        : Except GoError Configuration) = Except.ok configuration ∧
      (Except.ok { Streams := [{ CodecType := ascii "video" }],
                   Format := { Duration := ascii "20" } } : Except GoError Metadata)
        = Except.ok md ∧
      (Initialize
          { Configure := Except.ok { FfmpegBin := ascii "ffmpeg", FfprobeBin := ascii "ffprobe" },
            notExist := fun _ => false, probe := fun _ _ => (none, ascii "{}"),
            Unmarshal := fun _ => Except.ok { Streams := [{ CodecType := ascii "video" }],
                                              Format := { Duration := ascii "20" } } }
          { stdErrPipe := none, mediafile := none } (ascii "in.mp4") (ascii "out.mp4")).t
        = { stdErrPipe := none,
            mediafile := some { inputPath := ascii "in.mp4", outputPath := ascii "out.mp4",
                                metadata := md },
            configuration := configuration } :=
  (Initialize_atomic
    { Configure := Except.ok { FfmpegBin := ascii "ffmpeg", FfprobeBin := ascii "ffprobe" },
      notExist := fun _ => false, probe := fun _ _ => (none, ascii "{}"),
      Unmarshal := fun _ => Except.ok { Streams := [{ CodecType := ascii "video" }],
                                        Format := { Duration := ascii "20" } } }
    { stdErrPipe := none, mediafile := none } (ascii "in.mp4") (ascii "out.mp4")).2 (by decide)

/-- C12: whatever the outcomes of starting and of waiting on the child process,
the goroutine of `Run` sends exactly one value on `done` and then closes it; the
value is nil exactly when the process started and its wait returned no error,
and a failure otherwise; after a failed start the process is not waited on. -/
theorem Run_one_shot (ToStrCommand : Mediafile → List Bytes)
    (exec : Bytes → List Bytes → Proc) (t : Transcoder) (media : Mediafile)
    (h : t.mediafile = some media) :
    ∃ r v, Run ToStrCommand exec t = some r ∧
      r.done = [ChanOp.send v, ChanOp.close] ∧
      (v = none ↔
        (exec t.configuration.FfmpegBin (ascii "-y" :: ToStrCommand media)).Start = none ∧
        (exec t.configuration.FfmpegBin (ascii "-y" :: ToStrCommand media)).Wait = none) ∧
      ((exec t.configuration.FfmpegBin (ascii "-y" :: ToStrCommand media)).Start ≠ none →
        r.waited = false) := by
  have hc : GetCommand ToStrCommand t = some (ascii "-y" :: ToStrCommand media) := by
    simp [GetCommand, h]
  unfold Run
  rw [hc]
  simp only
  generalize exec t.configuration.FfmpegBin (ascii "-y" :: ToStrCommand media) = proc
  cases hs : proc.Start with
  | some err =>
    refine ⟨_, _, rfl, rfl, ?_, fun _ => rfl⟩
    simp
  | none =>
    cases hw : proc.Wait with
    | some err =>
      refine ⟨_, _, rfl, rfl, ?_, fun hne => absurd rfl hne⟩
      simp
    | none =>
      refine ⟨_, _, rfl, rfl, ?_, fun hne => absurd rfl hne⟩
      simp

theorem Run_one_shot_witness :
    ∃ r v,
      Run (fun m => [ascii "-i", m.inputPath, m.outputPath])
          (fun _ _ => { StderrPipe := Except.ok { data := ascii "frame=1", chunks := [] },
                        Start := none, Wait := some (ascii "exit status 1"),
                        outAtStart := [], outAtWait := ascii "oops" })
          { stdErrPipe := none,
            mediafile := some { inputPath := ascii "in.mp4", outputPath := ascii "out.mp4",
                                metadata := { Streams := [], Format := { Duration := [] } } } }
        = some r ∧
      r.done = [ChanOp.send v, ChanOp.close] ∧
      (v = none ↔ (none : Option GoError) = none ∧ some (ascii "exit status 1") = none) ∧
      ((none : Option GoError) ≠ none → r.waited = false) :=
  Run_one_shot (fun m => [ascii "-i", m.inputPath, m.outputPath])
    (fun _ _ => { StderrPipe := Except.ok { data := ascii "frame=1", chunks := [] },
                  Start := none, Wait := some (ascii "exit status 1"),
                  outAtStart := [], outAtWait := ascii "oops" })
    _ { inputPath := ascii "in.mp4", outputPath := ascii "out.mp4",
        metadata := { Streams := [], Format := { Duration := [] } } } rfl

/-! ### Progress of the tokenizer -/

theorem split_token_part (ft w : Bytes) (b : Bool) (adv : Int) (tok : Bytes)
    (h : split ft w b = (adv, some tok)) : tok <:+: w := by
  unfold split at h
  simp only at h
  split_ifs at h <;> simp only [Prod.mk.injEq] at h <;> obtain ⟨_, h2⟩ := h <;> cases h2 <;>
    first
      | exact (List.drop_suffix _ _).isInfix
      | exact (List.take_prefix _ _).isInfix
      | exact List.infix_refl _

/-- The number of tokens the scanner delivers is at most the number of bytes it
still has to go through. -/
theorem scanLoop_bounded (ft : Bytes) :
    ∀ (μ : Nat) (s : Scanner), (s.err = none ∨ s.err = some ScanError.EOF) →
      s.start + s.win.length ≤ s.cap →
      s.win.length + 2 * s.r.data.length + (if s.err = none then 1 else 0) ≤ μ →
      ∀ fuel, μ + 1 ≤ fuel →
        ∃ toks, scanLoop (split ft) fuel s = some toks ∧
          toks.length ≤ s.win.length + s.r.data.length := by
  intro μ
  induction μ using Nat.strong_induction_on with
  | _ μ ih =>
    intro s herr hinv hμ fuel hfuel
    obtain ⟨f, rfl⟩ : ∃ f, fuel = f + 1 := ⟨fuel - 1, by omega⟩
    rcases split_cases ft s.win (decide (s.err ≠ none)) with ⟨hsp, hemp⟩ | ⟨n, tok, hsp, hn1, hn2⟩
    · rcases herr with herr | herr
      · have hfalse : decide (s.err ≠ none) = false := by simp [herr]
        rw [hfalse] at hsp
        have hstep : s.step (split ft) = s.fill := by
          obtain ⟨r, M, cap, start, win, err⟩ := s
          simp only at herr hsp
          subst herr
          unfold Scanner.step
          by_cases hw : win = []
          · simp [hw]
          · have h0 : ¬ ((0 : Int) > (win.length : Int)) := by omega
            simp only [hw, ne_eq, not_false_eq_true, true_or, if_true, not_true_eq_false,
              decide_False, hsp, lt_self_iff_false, if_false, h0, Int.toNat_zero, Nat.add_zero,
              List.drop_zero]
        rcases Scanner.fill_cases s herr hinv with ⟨s1, hstop⟩ | ⟨s1, hmore, hM, hinv1, hfed⟩
        · exact ⟨[], by simp only [scanLoop, hstep, hstop], by simp⟩
        · rcases hfed with ⟨hd, hwin, herr1, hd1⟩ | ⟨k, hk1, hk2, hwin, hdat, herr1⟩
          · obtain ⟨toks, hrun, hlen⟩ := ih (μ - 1) (by simp [herr] at hμ; omega) s1
              (Or.inr herr1) hinv1 (by simp [herr, herr1, hwin, hd, hd1] at hμ ⊢; omega) f (by
                simp [herr] at hμ; omega)
            refine ⟨toks, by simp only [scanLoop, hstep, hmore, hrun], ?_⟩
            rw [hwin, hd1] at hlen
            rw [hd]
            exact hlen
          · obtain ⟨toks, hrun, hlen⟩ := ih (μ - 1) (by simp [herr] at hμ; omega) s1
              (Or.inl herr1) hinv1 (by
                rw [hwin, hdat]
                simp only [herr, herr1, if_true, List.length_append, List.length_take,
                  List.length_drop] at hμ ⊢
                omega) f (by simp [herr] at hμ; omega)
            refine ⟨toks, by simp only [scanLoop, hstep, hmore, hrun], ?_⟩
            rw [hwin, hdat] at hlen
            simp only [List.length_append, List.length_take, List.length_drop] at hlen
            omega
      · have hw : s.win = [] := hemp (by simp [herr])
        obtain ⟨s1, hstop⟩ := Scanner.step_stop (split ft) s hw herr (split_empty_eof ft)
        exact ⟨[], by simp only [scanLoop, hstop], by simp⟩
    · have hw : s.win ≠ [] := by
        intro e
        rw [e] at hn2
        simp at hn2
        omega
      have hstep := Scanner.step_token (split ft) s n tok (Or.inl hw) hn2 hsp
      obtain ⟨toks, hrun, hlen⟩ := ih (μ - 1) (by omega)
        { s with start := s.start + n, win := s.win.drop n } herr
        (by simp only [List.length_drop]; omega)
        (by simp only [List.length_drop]; omega) f (by omega)
      refine ⟨tok :: toks, by simp only [scanLoop, hstep, hrun]; rfl, ?_⟩
      simp only [List.length_drop, List.length_cons] at hlen ⊢
      omega

theorem emitLoop_length_le (duration : Bytes) (last : F64) (toks : List Bytes) :
    (emitLoop duration last toks).length ≤ toks.length :=
  le_trans (emitLoop_sublist duration toks last).length_le (List.length_filterMap_le _ _)

/-- C16: for both stream kinds, when the split function returns a token its
advance is at least 1 and at most the length of the data, and the token is a
contiguous part of the data; when it returns no token its advance is 0.  So the
scan of any stream ends after at most as many tokens as the stream has bytes,
and `Output` sends a finite sequence, of at most that many updates. -/
theorem split_advances (filetype data : Bytes) (atEOF : Bool) :
    (∀ adv tok, split filetype data atEOF = (adv, some tok) →
      0 < adv ∧ adv ≤ (data.length : Int) ∧ tok <:+: data) ∧
    (∀ adv, split filetype data atEOF = (adv, none) → adv = 0) ∧
    (∀ pipe : Reader, ∃ toks, scanTokens filetype pipe = some toks ∧
      toks.length ≤ pipe.data.length) ∧
    (∀ (t : Transcoder) (pipe : Reader) (mf : Mediafile),
      t.stdErrPipe = some pipe → t.mediafile = some mf →
      ∃ out, Output t = some out ∧ out.length ≤ pipe.data.length) := by
  have hscan : ∀ (ft : Bytes) (pipe : Reader), ∃ toks, scanTokens ft pipe = some toks ∧
      toks.length ≤ pipe.data.length := by
    intro ft pipe
    unfold scanTokens scanFuel
    have := scanLoop_bounded ft (2 * pipe.data.length + 1) (newScanner pipe) (Or.inl rfl)
      (by simp [newScanner]) (by simp [newScanner]) (2 * pipe.data.length + 3) (by omega)
    simpa [newScanner] using this
  refine ⟨?_, ?_, hscan filetype, ?_⟩
  · intro adv tok h
    rcases split_cases filetype data atEOF with ⟨h0, _⟩ | ⟨n, tok1, h1, hn1, hn2⟩
    · rw [h0] at h
      simp at h
    · rw [h1] at h
      simp only [Prod.mk.injEq, Option.some.injEq] at h
      rw [← h.1]
      exact ⟨by omega, by omega, split_token_part filetype data atEOF _ _ (by rw [h1, h.2])⟩
  · intro adv h
    rcases split_cases filetype data atEOF with ⟨h0, _⟩ | ⟨n, tok1, h1, hn1, hn2⟩
    · rw [h0] at h
      simp only [Prod.mk.injEq, and_true] at h
      exact h.symm
    · rw [h1] at h
      simp at h
  · intro t pipe mf hp hm
    obtain ⟨toks, hrun, hlen⟩ := hscan (CheckFileType mf.metadata.Streams) pipe
    refine ⟨emitLoop mf.metadata.Format.Duration F64.zero toks, ?_, ?_⟩
    · simp [Output, hp, hm, hrun]
    · exact le_trans (emitLoop_length_le _ _ _) hlen

theorem split_advances_witness :
    ∃ toks, scanTokens (ascii "video")
        { data := ascii "xframe=1 time=00:00:01.00 bitrate=1k frame=2", chunks := [4, 9] }
        = some toks ∧
      toks.length ≤ (ascii "xframe=1 time=00:00:01.00 bitrate=1k frame=2").length :=
  (split_advances (ascii "video") (ascii "xframe=1") false).2.2.1
    { data := ascii "xframe=1 time=00:00:01.00 bitrate=1k frame=2", chunks := [4, 9] }

/-! ### The field loop -/

theorem takeWhile_ne_self (sep : UInt8) :
    ∀ (f : Bytes), sep ∉ f → f.takeWhile (fun c => c != sep) = f := by
  intro f
  induction f with
  | nil => intro _; rfl
  | cons c f ih =>
    intro h
    have hc : ¬ c = sep := fun e => h (by simp [e])
    have hb : (c != sep) = true := by simp [hc]
    have hf : sep ∉ f := fun e => h (List.mem_cons_of_mem _ e)
    simp [List.takeWhile, hb, ih hf]

theorem Split_eq (sep : UInt8) :
    ∀ (f : Bytes), Split sep f =
      if sep ∈ f then
        f.takeWhile (fun c => c != sep) :: Split sep ((f.dropWhile (fun c => c != sep)).drop 1)
      else [f] := by
  intro f
  induction f with
  | nil => simp [Split]
  | cons c f ih =>
    by_cases hc : c = sep
    · subst hc
      simp [Split, List.takeWhile, List.dropWhile]
    · have hsc : ¬ sep = c := fun e => hc e.symm
      have hb : (c != sep) = true := by simp [hc]
      by_cases hf : sep ∈ f
      · rw [if_pos hf] at ih
        simp [Split, hc, hsc, hf, ih, List.takeWhile, List.dropWhile, hb]
      · rw [if_neg hf] at ih
        simp [Split, hc, hsc, hf, ih]

theorem Split_head (sep : UInt8) (f : Bytes) :
    (Split sep f).getD 0 [] = f.takeWhile (fun c => c != sep) := by
  rw [Split_eq]
  by_cases hf : sep ∈ f
  · simp [hf]
  · simp [hf, takeWhile_ne_self sep f hf]

theorem Split_length (sep : UInt8) (f : Bytes) : (Split sep f).length > 1 ↔ sep ∈ f := by
  have hpos : ∀ g, 0 < (Split sep g).length := by
    intro g
    rw [Split_eq]
    split <;> simp
  rw [Split_eq]
  by_cases hf : sep ∈ f
  · have := hpos ((f.dropWhile (fun c => c != sep)).drop 1)
    simp only [hf, if_true, List.length_cons, iff_true]
    omega
  · simp [hf]

theorem Split_second (sep : UInt8) (f : Bytes) (hf : sep ∈ f) :
    (Split sep f).getD 1 [] =
      ((f.dropWhile (fun c => c != sep)).drop 1).takeWhile (fun c => c != sep) := by
  conv_lhs => rw [Split_eq]
  rw [if_pos hf, List.getD_cons_succ, Split_head]

/-- The body of the field loop, in terms of the name and the value of a field. -/
theorem fieldStep_eq (v : FieldValues) (f : Bytes) :
    fieldStep v f =
      if (61 : UInt8) ∈ f then
        { framesProcessed :=
            if fieldName f = ascii "frame" then fieldValue f else v.framesProcessed,
          currentTime := if fieldName f = ascii "time" then fieldValue f else v.currentTime,
          currentBitrate :=
            if fieldName f = ascii "bitrate" then fieldValue f else v.currentBitrate }
      else v := by
  unfold fieldStep
  by_cases hf : (61 : UInt8) ∈ f
  · have hl := (Split_length 61 f).mpr hf
    simp only [hl, if_true, hf, Split_head, Split_second 61 f hf]
    unfold fieldName fieldValue
    have d12 : ¬ ascii "frame" = ascii "time" := by decide
    have d13 : ¬ ascii "frame" = ascii "bitrate" := by decide
    have d23 : ¬ ascii "time" = ascii "bitrate" := by decide
    have d21 : ¬ ascii "time" = ascii "frame" := by decide
    have d31 : ¬ ascii "bitrate" = ascii "frame" := by decide
    have d32 : ¬ ascii "bitrate" = ascii "time" := by decide
    by_cases h1 : List.takeWhile (fun c => c != 61) f = ascii "frame" <;>
      by_cases h2 : List.takeWhile (fun c => c != 61) f = ascii "time" <;>
      by_cases h3 : List.takeWhile (fun c => c != 61) f = ascii "bitrate" <;>
      first
        | exact absurd (h1.symm.trans h2) d12
        | exact absurd (h1.symm.trans h3) d13
        | exact absurd (h2.symm.trans h3) d23
        | simp [h1, h2, h3, d12, d13, d23, d21, d31, d32]
  · have hl : ¬ (Split 61 f).length > 1 := fun h => hf ((Split_length 61 f).mp h)
    simp only [hl, if_false, hf]

theorem getLast_pick {α β : Type} (q : α → Bool) (val : α → β) (f : α) (fs : List α) (d : β) :
    ((((f :: fs).filter q).getLast?).map val).getD d
      = (((fs.filter q).getLast?).map val).getD (if q f = true then val f else d) := by
  by_cases hq : q f = true
  · rw [List.filter_cons_of_pos hq, if_pos hq]
    cases hl : fs.filter q with
    | nil => simp
    | cons g l =>
      rw [List.getLast?_cons_cons]
      cases hx : (g :: l).getLast? with
      | none => simp at hx
      | some x => rfl
  · rw [List.filter_cons_of_neg hq, if_neg hq]

theorem fieldStep_proj (v : FieldValues) (f : Bytes) :
    (fieldStep v f).framesProcessed
      = (if (decide ((61 : UInt8) ∈ f) && decide (fieldName f = ascii "frame")) = true
          then fieldValue f else v.framesProcessed) ∧
    (fieldStep v f).currentTime
      = (if (decide ((61 : UInt8) ∈ f) && decide (fieldName f = ascii "time")) = true
          then fieldValue f else v.currentTime) ∧
    (fieldStep v f).currentBitrate
      = (if (decide ((61 : UInt8) ∈ f) && decide (fieldName f = ascii "bitrate")) = true
          then fieldValue f else v.currentBitrate) := by
  rw [fieldStep_eq]
  by_cases hf : (61 : UInt8) ∈ f
  · simp [hf]
  · simp [hf]

theorem foldl_fieldStep :
    ∀ (fs : List Bytes) (v : FieldValues),
      (fs.foldl fieldStep v).framesProcessed
        = (((fs.filter (fun f => decide ((61 : UInt8) ∈ f) &&
              decide (fieldName f = ascii "frame"))).getLast?).map fieldValue).getD
            v.framesProcessed ∧
      (fs.foldl fieldStep v).currentTime
        = (((fs.filter (fun f => decide ((61 : UInt8) ∈ f) &&
              decide (fieldName f = ascii "time"))).getLast?).map fieldValue).getD
            v.currentTime ∧
      (fs.foldl fieldStep v).currentBitrate
        = (((fs.filter (fun f => decide ((61 : UInt8) ∈ f) &&
              decide (fieldName f = ascii "bitrate"))).getLast?).map fieldValue).getD
            v.currentBitrate := by
  intro fs
  induction fs with
  | nil => intro v; simp
  | cons f fs ih =>
    intro v
    obtain ⟨h1, h2, h3⟩ := ih (fieldStep v f)
    obtain ⟨p1, p2, p3⟩ := fieldStep_proj v f
    rw [List.foldl_cons, h1, h2, h3, p1, p2, p3, getLast_pick, getLast_pick, getLast_pick]
    exact ⟨rfl, rfl, rfl⟩

theorem lastFieldValue_eq (name : Bytes) (fields : List Bytes) :
    lastFieldValue name fields
      = (((fields.filter (fun f => decide ((61 : UInt8) ∈ f) &&
            decide (fieldName f = name))).getLast?).map fieldValue).getD [] := by
  unfold lastFieldValue
  cases (fields.filter (fun f => decide ((61 : UInt8) ∈ f) &&
    decide (fieldName f = name))).getLast? <;> rfl

/-- C17: for every candidate token, with the fields being the white-space
separated parts of the token after "=<white space>" is collapsed, the values
`Output` reports as frame, time and bitrate are each the text between the first
and the second '=' (or the end) of the last field that has an '=' and whose text
before its first '=' is exactly that name, and the empty string when there is no
such field; no other field has an effect. -/
theorem parseLine_last_field (duration line : Bytes)
    (h : (Contains line (ascii "time=") && Contains line (ascii "bitrate=")) = true) :
    ∃ p, parseLine duration line = some p ∧
      p.FramesProcessed = lastFieldValue (ascii "frame") (Fields (ReplaceAllString line)) ∧
      p.CurrentTime = lastFieldValue (ascii "time") (Fields (ReplaceAllString line)) ∧
      p.CurrentBitrate = lastFieldValue (ascii "bitrate") (Fields (ReplaceAllString line)) := by
  obtain ⟨h1, h2, h3⟩ := foldl_fieldStep (Fields (ReplaceAllString line))
    { framesProcessed := [], currentTime := [], currentBitrate := [] }
  have hp : parseLine duration line = some
      { Progress := F64.div (F64.mul (DurToSec
            (fieldLoop (Fields (ReplaceAllString line))).currentTime) (F64.ofNat 100))
          (ParseFloat duration),
        CurrentBitrate := (fieldLoop (Fields (ReplaceAllString line))).currentBitrate,
        FramesProcessed := (fieldLoop (Fields (ReplaceAllString line))).framesProcessed,
        CurrentTime := (fieldLoop (Fields (ReplaceAllString line))).currentTime } := by
    simp only [parseLine, h, if_true]
  refine ⟨_, hp, ?_, ?_, ?_⟩
  · simp only [fieldLoop, h1, lastFieldValue_eq]
  · simp only [fieldLoop, h2, lastFieldValue_eq]
  · simp only [fieldLoop, h3, lastFieldValue_eq]

theorem parseLine_last_field_witness :
    ∃ p, parseLine (ascii "10")
        (ascii "frame=1 frame= 7=x time=a=b fps=3 frame time=00:00:05.00 bitrate=") = some p ∧
      p.FramesProcessed = lastFieldValue (ascii "frame") (Fields (ReplaceAllString
        (ascii "frame=1 frame= 7=x time=a=b fps=3 frame time=00:00:05.00 bitrate="))) ∧
      p.CurrentTime = lastFieldValue (ascii "time") (Fields (ReplaceAllString
        (ascii "frame=1 frame= 7=x time=a=b fps=3 frame time=00:00:05.00 bitrate="))) ∧
      p.CurrentBitrate = lastFieldValue (ascii "bitrate") (Fields (ReplaceAllString
        (ascii "frame=1 frame= 7=x time=a=b fps=3 frame time=00:00:05.00 bitrate="))) :=
  parseLine_last_field (ascii "10")
    (ascii "frame=1 frame= 7=x time=a=b fps=3 frame time=00:00:05.00 bitrate=") (by decide)

/-! ### Padding after `=` -/

theorem collapseAux_skip :
    ∀ (ws rest : Bytes), (∀ c ∈ ws, isReSpace c = true) →
      collapseAux true (ws ++ rest) = collapseAux true rest := by
  intro ws
  induction ws with
  | nil => intro rest _; rfl
  | cons c ws ih =>
    intro rest h
    have hc := h c (List.mem_cons_self _ _)
    show collapseAux true (c :: (ws ++ rest)) = _
    rw [collapseAux]
    simp only [hc, Bool.and_self, if_true]
    exact ih rest (fun x hx => h x (List.mem_cons_of_mem _ hx))

theorem collapseAux_insert (ws rest : Bytes) (hws : ∀ c ∈ ws, isReSpace c = true) :
    ∀ (a : Bytes) (skip : Bool),
      collapseAux skip (a ++ 61 :: (ws ++ rest)) = collapseAux skip (a ++ 61 :: rest) := by
  intro a
  induction a with
  | nil =>
    intro skip
    have h61 : isReSpace 61 = false := by decide
    show collapseAux skip (61 :: (ws ++ rest)) = collapseAux skip (61 :: rest)
    rw [collapseAux, collapseAux]
    simp only [h61, Bool.and_false, Bool.false_eq_true, if_false, decide_True]
    rw [collapseAux_skip ws rest hws]
  | cons c a ih =>
    intro skip
    show collapseAux skip (c :: (a ++ 61 :: (ws ++ rest)))
      = collapseAux skip (c :: (a ++ 61 :: rest))
    rw [collapseAux, collapseAux, ih true, ih (decide (c = 61))]

theorem Contains_iff_occurs (s p : Bytes) : Contains s p = true ↔ p <:+: s := by
  unfold Contains
  constructor
  · intro h
    cases hx : indexOpt p s with
    | none =>
      rw [(Index_eq_neg_one _ _).mpr hx] at h
      simp at h
    | some i =>
      exact (indexOpt_occurs p s i hx).isInfix.trans (List.drop_suffix i s).isInfix
  · rintro ⟨u, v, e⟩
    have hpre : p <+: s.drop u.length := by
      rw [← e, List.append_assoc, List.drop_left]
      exact List.prefix_append p v
    cases hx : indexOpt p s with
    | none => exact absurd hpre (indexOpt_none p s u.length hx)
    | some i =>
      rw [(Index_eq_natCast _ _ _).mpr hx]
      simp

/-- An occurrence of `p`, which has no `=` before its last byte, survives the
insertion of bytes right after a `=`. -/
theorem infix_insert (p a b ws : Bytes) (hp : (61 : UInt8) ∉ p.dropLast)
    (h : p <:+: a ++ 61 :: b) : p <:+: a ++ 61 :: (ws ++ b) := by
  obtain ⟨u, v, e⟩ := h
  have e1 : (u ++ p) ++ v = (a ++ [61]) ++ b := by simpa using e
  have tgt : a ++ 61 :: (ws ++ b) = (a ++ [61]) ++ (ws ++ b) := by simp
  rw [tgt]
  rcases List.append_eq_append_iff.mp e1 with ⟨a1, h1, h2⟩ | ⟨c1, h1, h2⟩
  · -- the occurrence ends inside `a ++ "="`
    rw [h1]
    exact ⟨u, a1 ++ (ws ++ b), by simp⟩
  · rcases List.append_eq_append_iff.mp h1 with ⟨a2, h3, h4⟩ | ⟨c2, h3, h4⟩
    · -- the occurrence starts in `a ++ "="` and goes on for `c1`
      by_cases hc1 : c1 = []
      · subst hc1
        simp only [List.append_nil] at h1
        rw [← h1]
        exact ⟨u, ws ++ b, by simp⟩
      · by_cases ha2 : a2 = []
        · subst ha2
          simp only [List.append_nil, List.nil_append] at h3 h4
          rw [h3, h2, h4]
          exact ⟨u ++ ws, v, by simp⟩
        · exfalso
          apply hp
          have hlast : (61 : UInt8) ∈ a2 := by
            have hl := congrArg List.getLast? h3
            rw [List.getLast?_append_of_ne_nil u ha2, List.getLast?_concat] at hl
            exact List.mem_of_getLast?_eq_some hl.symm
          have hdrop : a2 <+: p.dropLast := by
            rw [h4, List.dropLast_append_of_ne_nil a2 hc1]
            exact List.prefix_append _ _
          exact hdrop.subset hlast
    · -- the occurrence lies in `b`
      rw [h2, h4]
      exact ⟨(a ++ [61]) ++ ws ++ c2, v, by simp⟩

theorem Contains_insert (p a b ws : Bytes) (hp : (61 : UInt8) ∉ p.dropLast)
    (h : Contains (a ++ 61 :: b) p = true) : Contains (a ++ 61 :: (ws ++ b)) p = true :=
  (Contains_iff_occurs _ _).mpr (infix_insert p a b ws hp ((Contains_iff_occurs _ _).mp h))

/-- C15: for every candidate token and every token obtained from it by inserting
a run of white space (space, tab, newline, form feed, carriage return) right
after one of its '=' characters, the text after collapsing "=<white space>" is
the same, and so are the fields, the three values extracted and the whole
update, percentage included. -/
theorem parseLine_padding (duration a b ws : Bytes)
    (hws : ∀ c ∈ ws, isReSpace c = true)
    (hcand : (Contains (a ++ 61 :: b) (ascii "time=") &&
      Contains (a ++ 61 :: b) (ascii "bitrate=")) = true) :
    ReplaceAllString (a ++ 61 :: (ws ++ b)) = ReplaceAllString (a ++ 61 :: b) ∧
    fieldLoop (Fields (ReplaceAllString (a ++ 61 :: (ws ++ b))))
      = fieldLoop (Fields (ReplaceAllString (a ++ 61 :: b))) ∧
    parseLine duration (a ++ 61 :: (ws ++ b)) = parseLine duration (a ++ 61 :: b) := by
  have hr : ReplaceAllString (a ++ 61 :: (ws ++ b)) = ReplaceAllString (a ++ 61 :: b) :=
    collapseAux_insert ws b hws a false
  simp only [Bool.and_eq_true] at hcand
  have c1 := Contains_insert (ascii "time=") a b ws (by decide) hcand.1
  have c2 := Contains_insert (ascii "bitrate=") a b ws (by decide) hcand.2
  refine ⟨hr, by rw [hr], ?_⟩
  simp only [parseLine, c1, c2, hcand.1, hcand.2, hr]

theorem parseLine_padding_witness :
    ReplaceAllString (ascii "frame" ++ 61 :: (ascii " \t " ++ ascii "7 time=00:00:05.00 bitrate=1k"))
      = ReplaceAllString (ascii "frame" ++ 61 :: ascii "7 time=00:00:05.00 bitrate=1k") ∧
    fieldLoop (Fields (ReplaceAllString
        (ascii "frame" ++ 61 :: (ascii " \t " ++ ascii "7 time=00:00:05.00 bitrate=1k"))))
      = fieldLoop (Fields (ReplaceAllString
        (ascii "frame" ++ 61 :: ascii "7 time=00:00:05.00 bitrate=1k"))) ∧
    parseLine (ascii "10")
        (ascii "frame" ++ 61 :: (ascii " \t " ++ ascii "7 time=00:00:05.00 bitrate=1k"))
      = parseLine (ascii "10") (ascii "frame" ++ 61 :: ascii "7 time=00:00:05.00 bitrate=1k") :=
  parseLine_padding (ascii "10") (ascii "frame") (ascii "7 time=00:00:05.00 bitrate=1k")
    (ascii " \t ") (by decide) (by decide)

end transcoder
